import Mathlib

/-!
A verification development for the QOI ("Quite OK Image") codec with an
optional canonical-Huffman entropy layer, as implemented in `qoi.h`.

The C code is shallowly embedded: byte buffers are `List Nat` whose
members are below 256, machine-integer wraparound is explicit `% 256`
(resp. `% 2^32`), pointer-returning fallible functions return `Option`,
and the stateful encode/decode loops are structural recursions over an
explicit pixel count (the C loops run exactly `width*height` iterations).

Bitwise operations of the source are translated to the arithmetic
operations they perform on the in-range operands:
`x & 0x3f` becomes `x % 64`, `(x >> 4) & 3` becomes `x / 16 % 4`,
`(b1 & 0xc0) == 0x40` becomes `b1 / 64 = 1`, and an `|` of disjoint
bit ranges becomes `+`.  Signed-char conversions are the explicit
two's-complement function `sc`.
-/

namespace QoiSpec

set_option maxRecDepth 1000000
set_option exponentiation.threshold 1000000

/-- Pixel with four 8-bit channels; source union `qoi_rgba_t`.
Two pixels are equal as 32-bit values (`px.v == px_prev.v`) iff they are
componentwise equal, which is how equality is modelled here. -/
structure Px where
  r : Nat
  g : Nat
  b : Nat
  a : Nat
deriving DecidableEq, Repr

/-- The zero-initialised cache entry (`QOI_ZEROARR(index)`). -/
def zeroPx : Px := ⟨0, 0, 0, 0⟩

/-- The initial previous pixel {r:0, g:0, b:0, a:255}. -/
def initPx : Px := ⟨0, 0, 0, 255⟩

/-- `QOI_COLOR_HASH(C) % 64`. -/
def qoiColorHash (c : Px) : Nat :=
  (c.r * 3 + c.g * 5 + c.b * 7 + c.a * 11) % 64

/-- Conversion of an int to `signed char`: two's-complement wraparound
into `[-128, 127]`. -/
def sc (n : Int) : Int := (n + 128) % 256 - 128

/-- Source struct `qoi_desc`. -/
structure QoiDesc where
  width : Nat
  height : Nat
  channels : Nat
  colorspace : Nat
deriving DecidableEq, Repr

def QOI_PIXELS_MAX : Nat := 400000000

/-- `qoi_padding[8] = {0,0,0,0,0,0,0,1}`, the 8-byte end marker. -/
def qoi_padding : List Nat := [0, 0, 0, 0, 0, 0, 0, 1]

/-- `qoi_write_32`: the four big-endian bytes of `v`. -/
def qoiWrite32 (v : Nat) : List Nat :=
  [v / 2 ^ 24 % 256, v / 2 ^ 16 % 256, v / 2 ^ 8 % 256, v % 256]

/-- `QOI_MAGIC` = "qoif" packed big-endian. -/
def QOI_MAGIC : Nat := 0x716f6966

/-- Reading the current pixel from the input buffer (`channels == 4`
copies all four bytes, otherwise r,g,b are read and the alpha of the
running pixel — the previous pixel — is kept). -/
def readPx (P : List Nat) (channels pos : Nat) (prev : Px) : Px :=
  if channels = 4 then
    { r := P.getD pos 0, g := P.getD (pos + 1) 0,
      b := P.getD (pos + 2) 0, a := P.getD (pos + 3) 0 }
  else
    { r := P.getD pos 0, g := P.getD (pos + 1) 0,
      b := P.getD (pos + 2) 0, a := prev.a }

/-- Encoder loop state: pending run, the 64-entry cache, the previous
pixel, and the bytes emitted into the chunk region so far. -/
structure EncSt where
  run : Nat
  index : List Px
  prev : Px
  out : List Nat
deriving DecidableEq, Repr

/-- The body of `qoi_encode`'s per-pixel loop (lines 475..548 of the
source), for current pixel `px` at byte position `pos`.
`QOI_OP_RUN | (run-1)` is `192 + (run-1)`, `QOI_OP_INDEX | pos` is the
index itself, `QOI_OP_DIFF | (vr+2)<<4 | (vg+2)<<2 | (vb+2)` is
`64 + (vr+2)*16 + (vg+2)*4 + (vb+2)`, `QOI_OP_LUMA | (vg+32)` is
`128 + (vg+32)`, and the LUMA second byte `(vg_r+8)<<4 | (vg_b+8)` is
`(vg_r+8)*16 + (vg_b+8)`. -/
def encPixelStep (pos pxEnd : Nat) (px : Px) (s : EncSt) : EncSt :=
  if px = s.prev then
    let run := s.run + 1
    if run = 62 ∨ pos = pxEnd then
      { s with run := 0, prev := px, out := s.out ++ [192 + (run - 1)] }
    else
      { s with run := run, prev := px }
  else
    let s1 :=
      if 0 < s.run then { s with out := s.out ++ [192 + (s.run - 1)], run := 0 }
      else s
    let ipos := qoiColorHash px
    if s1.index.getD ipos zeroPx = px then
      { s1 with prev := px, out := s1.out ++ [ipos] }
    else
      let s2 := { s1 with index := s1.index.set ipos px }
      if px.a = s.prev.a then
        let vr := sc ((px.r : Int) - (s.prev.r : Int))
        let vg := sc ((px.g : Int) - (s.prev.g : Int))
        let vb := sc ((px.b : Int) - (s.prev.b : Int))
        let vg_r := sc (vr - vg)
        let vg_b := sc (vb - vg)
        if -3 < vr ∧ vr < 2 ∧ -3 < vg ∧ vg < 2 ∧ -3 < vb ∧ vb < 2 then
          { s2 with
              prev := px,
              out := s2.out ++
                [64 + (vr + 2).toNat * 16 + (vg + 2).toNat * 4 + (vb + 2).toNat] }
        else if -9 < vg_r ∧ vg_r < 8 ∧ -33 < vg ∧ vg < 32 ∧ -9 < vg_b ∧ vg_b < 8 then
          { s2 with
              prev := px,
              out := s2.out ++
                [128 + (vg + 32).toNat, (vg_r + 8).toNat * 16 + (vg_b + 8).toNat] }
        else
          { s2 with prev := px, out := s2.out ++ [254, px.r, px.g, px.b] }
      else
        { s2 with prev := px, out := s2.out ++ [255, px.r, px.g, px.b, px.a] }

/-- The encoder's pixel loop; the fuel is the number of remaining pixels
(the C loop steps `px_pos` by `channels` until `px_len`, i.e. it runs
exactly `width*height` times). -/
def encLoop (P : List Nat) (channels pxEnd : Nat) : Nat → Nat → EncSt → EncSt
  | 0, _, s => s
  | n + 1, pos, s =>
    let px := readPx P channels pos s.prev
    encLoop P channels pxEnd n (pos + channels) (encPixelStep pos pxEnd px s)

def encInit : EncSt :=
  { run := 0, index := List.replicate 64 zeroPx, prev := initPx, out := [] }

/-- The 14-byte stream header. -/
def qoiHeader (desc : QoiDesc) : List Nat :=
  qoiWrite32 QOI_MAGIC ++ qoiWrite32 desc.width ++ qoiWrite32 desc.height ++
    [desc.channels, desc.colorspace]

/-- The parameter-validation condition of `qoi_encode` (its `data`,
`desc` and `out_len` null checks have no counterpart in this embedding:
the arguments always exist). -/
def encBadDesc (desc : QoiDesc) : Prop :=
  desc.width = 0 ∨ desc.height = 0 ∨ desc.channels < 3 ∨ 4 < desc.channels ∨
    1 < desc.colorspace ∨ QOI_PIXELS_MAX / desc.width ≤ desc.height

instance (desc : QoiDesc) : Decidable (encBadDesc desc) := by
  unfold encBadDesc; infer_instance

/-- `qoi_encode` (lines 425..556).  Allocation failure has no
counterpart in the embedding.  The `out_len` result is the length of
the returned byte list (the cursor `p` counts every byte appended). -/
def qoi_encode (data : List Nat) (desc : QoiDesc) : Option (List Nat) :=
  if encBadDesc desc then none
  else
    let channels := desc.channels
    let pxLen := desc.width * desc.height * channels
    let pxEnd := pxLen - channels
    let st := encLoop data channels pxEnd (desc.width * desc.height) 0 encInit
    some (qoiHeader desc ++ st.out ++ qoi_padding)

/-- Decoder loop state: input cursor, remaining run, cache, running
pixel, output bytes. -/
structure DecSt where
  p : Nat
  run : Nat
  index : List Px
  px : Px
  out : List Nat
deriving DecidableEq, Repr

/-- QOI_OP_DIFF decoding: `px.rgba.r += ((b1 >> 4) & 0x03) - 2` etc.,
with the u8 wraparound written as `+ 254` modulo 256. -/
def diffPx (px : Px) (b1 : Nat) : Px :=
  { r := (px.r + b1 / 16 % 4 + 254) % 256,
    g := (px.g + b1 / 4 % 4 + 254) % 256,
    b := (px.b + b1 % 4 + 254) % 256,
    a := px.a }

/-- QOI_OP_LUMA decoding: `vg = (b1 & 0x3f) - 32`,
`r += vg - 8 + ((b2 >> 4) & 0x0f)`, `g += vg`, `b += vg - 8 + (b2 & 0x0f)`,
with `-32` written as `+ 224` and `-40` as `+ 216` modulo 256. -/
def lumaPx (px : Px) (b1 b2 : Nat) : Px :=
  { r := (px.r + b1 % 64 + b2 / 16 % 16 + 216) % 256,
    g := (px.g + b1 % 64 + 224) % 256,
    b := (px.b + b1 % 64 + b2 % 16 + 216) % 256,
    a := px.a }

/-- Writing one output pixel (4-byte struct copy, else r,g,b). -/
def writePx (channels : Nat) (px : Px) : List Nat :=
  if channels = 4 then [px.r, px.g, px.b, px.a] else [px.r, px.g, px.b]

/-- One iteration of the decoder loop (lines 610..658): replay a run,
or read one chunk when the cursor is still inside the chunk region, then
emit the current pixel.  Tag dispatch order matches the source: the
8-bit tags 0xFE/0xFF are tested before the 2-bit tags, and
`(b1 & 0xc0) == t` is expressed as `b1 / 64 = t/64`. -/
def decPixelStep (bytes : List Nat) (chunksLen channels : Nat) (s : DecSt) : DecSt :=
  let s1 :=
    if 0 < s.run then { s with run := s.run - 1 }
    else if s.p < chunksLen then
      let b1 := bytes.getD s.p 0
      let s2 :=
        if b1 = 254 then
          { s with
              p := s.p + 4,
              px := { r := bytes.getD (s.p + 1) 0, g := bytes.getD (s.p + 2) 0,
                      b := bytes.getD (s.p + 3) 0, a := s.px.a } }
        else if b1 = 255 then
          { s with
              p := s.p + 5,
              px := { r := bytes.getD (s.p + 1) 0, g := bytes.getD (s.p + 2) 0,
                      b := bytes.getD (s.p + 3) 0, a := bytes.getD (s.p + 4) 0 } }
        else if b1 / 64 = 0 then
          { s with p := s.p + 1, px := s.index.getD b1 zeroPx }
        else if b1 / 64 = 1 then
          { s with p := s.p + 1, px := diffPx s.px b1 }
        else if b1 / 64 = 2 then
          { s with p := s.p + 2, px := lumaPx s.px b1 (bytes.getD (s.p + 1) 0) }
        else
          { s with p := s.p + 1, run := b1 % 64 }
      { s2 with index := s2.index.set (qoiColorHash s2.px) s2.px }
    else s
  { s1 with out := s1.out ++ writePx channels s1.px }

/-- The decoder's pixel loop; fuel is the number of output pixels. -/
def decLoop (bytes : List Nat) (chunksLen channels : Nat) : Nat → DecSt → DecSt
  | 0, s => s
  | n + 1, s => decLoop bytes chunksLen channels n (decPixelStep bytes chunksLen channels s)

def decInit : DecSt :=
  { p := 14, run := 0, index := List.replicate 64 zeroPx, px := initPx, out := [] }

/-- `qoi_read_32` at cursor `p` (bytes are < 256, so `|` is `+`). -/
def qoiRead32 (bytes : List Nat) (p : Nat) : Nat :=
  bytes.getD p 0 * 2 ^ 24 + bytes.getD (p + 1) 0 * 2 ^ 16 +
    bytes.getD (p + 2) 0 * 2 ^ 8 + bytes.getD (p + 3) 0

/-- The header-validation condition of `qoi_decode` (lines 583..591). -/
def decBadHeader (bytes : List Nat) : Prop :=
  qoiRead32 bytes 4 = 0 ∨ qoiRead32 bytes 8 = 0 ∨ bytes.getD 12 0 < 3 ∨
    4 < bytes.getD 12 0 ∨ 1 < bytes.getD 13 0 ∨ qoiRead32 bytes 0 ≠ QOI_MAGIC ∨
    QOI_PIXELS_MAX / qoiRead32 bytes 4 ≤ qoiRead32 bytes 8

instance (bytes : List Nat) : Decidable (decBadHeader bytes) := by
  unfold decBadHeader; infer_instance

/-- `qoi_decode` (lines 558..661).  Returns the filled descriptor and
the pixel bytes.  The loop runs `width*height` times (`px_pos` steps by
`channels` up to `px_len = width*height*channels`). -/
def qoi_decode (bytes : List Nat) (channels : Nat) : Option (QoiDesc × List Nat) :=
  if ¬(channels = 0 ∨ channels = 3 ∨ channels = 4) then none
  else if bytes.length < 22 then none
  else if decBadHeader bytes then none
  else
    let w := qoiRead32 bytes 4
    let h := qoiRead32 bytes 8
    let ch := bytes.getD 12 0
    let cs := bytes.getD 13 0
    let channels := if channels = 0 then ch else channels
    let chunksLen := bytes.length - 8
    let st := decLoop bytes chunksLen channels (w * h) decInit
    some (⟨w, h, ch, cs⟩, st.out)

/-! ## The Huffman entropy layer

The C scalar arrays of the Huffman encoder — histogram, heap, tree
arena and code table — are modelled as single natural numbers with
fixed-width slots: `a[i]` is `a / 2^(w*i) % 2^w`, and a store writes the
value modulo `2^w`, exactly the C unsigned conversion.  Uninitialised
array memory (never read by the code) is modelled as zero slots.
Comparisons inside these loops use the Bool-valued `Nat.blt`/`Nat.beq`
mirrors of the C comparisons, selected over with `cond`. -/

/-- `a[i]` for an array of `w`-bit slots. -/
def aget (w a i : Nat) : Nat := (a >>> (w * i)) % (1 <<< w)

/-- `a[i] = v` for an array of `w`-bit slots. -/
def aset (w a i v : Nat) : Nat :=
  ((a >>> (w * i + w)) <<< (w * i + w)) + ((v % (1 <<< w)) <<< (w * i)) + a % (1 <<< (w * i))

/-- Identity on the number, but evaluation reduces it to a literal
before the continuation sees it; this keeps machine evaluation of the
state-threading loops below linear in term size. -/
def forceNat (n : Nat) (k : Nat → α) : α :=
  match n with
  | 0 => k 0
  | m + 1 => k (m + 1)

/-- A tree-arena slot (source struct `encoding_tree_t`) packs
`count` (32 bits), `left` (16 bits) and `right` (16 bits); the `short`
sentinel `-1` is the 16-bit pattern 0xffff. -/
def treeNode (cnt l r : Nat) : Nat :=
  cnt % 2 ^ 32 + l % 2 ^ 16 * 2 ^ 32 + r % 2 ^ 16 * 2 ^ 48

def treeCount (tree i : Nat) : Nat := tree / 2 ^ (64 * i) % 2 ^ 32

def treeLeft (tree i : Nat) : Nat := tree / 2 ^ (64 * i + 32) % 2 ^ 16

def treeRight (tree i : Nat) : Nat := tree / 2 ^ (64 * i + 48) % 2 ^ 16

/-- `swap_min_heap` on the 16-bit-slot heap array. -/
def swap_min_heap (heap a b : Nat) : Nat :=
  aset 16 (aset 16 heap a (aget 16 heap b)) b (aget 16 heap a)

/-- One step of the heapify-up loop of `insert_min_heap`; the index
argument doubles as the loop condition (`while (idx)`), so a finished
loop state carries index 0 and further steps leave it unchanged. -/
def upStep (tree : Nat) (st : Nat × Nat) : Nat × Nat :=
  cond (Nat.beq st.2 0) st
    (cond (Nat.blt (treeCount tree (aget 16 st.1 ((st.2 - 1) / 2)))
            (treeCount tree (aget 16 st.1 st.2)))
      (st.1, 0)
      (forceNat (swap_min_heap st.1 st.2 ((st.2 - 1) / 2)) fun h => (h, (st.2 - 1) / 2)))

/-- The heapify-up loop: the index at least halves per step and is below
2^16, so 16 steps always cover the loop. -/
def heapifyUp (tree heap idx : Nat) : Nat :=
  (upStep tree (upStep tree (upStep tree (upStep tree (upStep tree (upStep tree (upStep tree (upStep tree (upStep tree (upStep tree (upStep tree (upStep tree (upStep tree (upStep tree (upStep tree (upStep tree (heap, idx))))))))))))))))).1

/-- `insert_min_heap`: place the item at the end, heapify up; returns the
new heap array and size. -/
def insert_min_heap (heap heapSize tree item : Nat) : Nat × Nat :=
  (heapifyUp tree (aset 16 heap heapSize item) heapSize, heapSize + 1)

/-- One step of the heapify-down loop of `pop_min_heap` (`heapSize` is
already the decremented size).  A finished loop state carries the
sentinel index 2^15, which fails the `idx*2+1 < heapSize` guard for
every heap size in range. -/
def downStep (tree heapSize : Nat) (st : Nat × Nat) : Nat × Nat :=
  cond (Nat.blt (st.2 * 2 + 1) heapSize)
    (cond (Nat.blt ((st.2 + 1) * 2) heapSize)
      (cond (Nat.blt (treeCount tree (aget 16 st.1 st.2))
                (treeCount tree (aget 16 st.1 (st.2 * 2 + 1))) &&
             Nat.blt (treeCount tree (aget 16 st.1 st.2))
                (treeCount tree (aget 16 st.1 ((st.2 + 1) * 2))))
        (st.1, 2 ^ 15)
        (cond (Nat.blt (treeCount tree (aget 16 st.1 ((st.2 + 1) * 2)))
                (treeCount tree (aget 16 st.1 (st.2 * 2 + 1))))
          (forceNat (swap_min_heap st.1 ((st.2 + 1) * 2) st.2) fun h => (h, (st.2 + 1) * 2))
          (forceNat (swap_min_heap st.1 (st.2 * 2 + 1) st.2) fun h => (h, st.2 * 2 + 1))))
      (cond (Nat.blt (treeCount tree (aget 16 st.1 (st.2 * 2 + 1)))
              (treeCount tree (aget 16 st.1 st.2)))
        (swap_min_heap st.1 (st.2 * 2 + 1) st.2, 2 ^ 15)
        (st.1, 2 ^ 15)))
    st

/-- The heapify-down loop: the index at least doubles per step and the
size is below 2^15, so 16 steps always cover the loop. -/
def heapifyDown (tree heapSize heap idx : Nat) : Nat :=
  (downStep tree heapSize (downStep tree heapSize (downStep tree heapSize (downStep tree heapSize (downStep tree heapSize (downStep tree heapSize (downStep tree heapSize (downStep tree heapSize (downStep tree heapSize (downStep tree heapSize (downStep tree heapSize (downStep tree heapSize (downStep tree heapSize (downStep tree heapSize (downStep tree heapSize (downStep tree heapSize (heap, idx))))))))))))))))).1

/-- `pop_min_heap`: returns the popped item, the new heap array, and the
new size. -/
def pop_min_heap (heap heapSize tree : Nat) : Nat × Nat × Nat :=
  cond (Nat.beq (heapSize - 1) 0)
    (aget 16 heap 0, heap, 0)
    (aget 16 heap 0,
      heapifyDown tree (heapSize - 1) (aset 16 heap 0 (aget 16 heap (heapSize - 1))) 0,
      heapSize - 1)

/-- The leaf-initialisation loop of `qoi_huff_encode` (lines 919..927):
`tree[i] = {histo[i], -1, -1}` then insert `i` into the heap; `i` is the
loop counter and the fuel counts the remaining iterations. -/
def huffInitLoop (histo : Nat) : Nat → Nat → Nat → Nat → Nat → Nat × Nat × Nat
  | 0, _, tree, heap, hs => (tree, heap, hs)
  | fuel + 1, i, tree, heap, hs =>
    forceNat (aset 64 tree i (treeNode (aget 32 histo i) 65535 65535)) fun tree =>
    let hp := insert_min_heap heap hs tree i
    forceNat hp.1 fun heap => forceNat hp.2 fun hs =>
    huffInitLoop histo fuel (i + 1) tree heap hs

/-- The tree-merging loop (lines 929..946); the fuel dominates the heap
size, which drops by one per iteration.  Returns tree, heap, heap size,
next free arena slot. -/
def huffMergeLoop : Nat → Nat → Nat → Nat → Nat → Nat × Nat × Nat × Nat
  | 0, tree, heap, hs, nextFree => (tree, heap, hs, nextFree)
  | fuel + 1, tree, heap, hs, nextFree =>
    cond (Nat.blt 1 hs)
      (let pl := pop_min_heap heap hs tree
       forceNat pl.1 fun l =>
       forceNat pl.2.1 fun heap1 =>
       forceNat pl.2.2 fun hs1 =>
       let pr := pop_min_heap heap1 hs1 tree
       forceNat pr.1 fun r =>
       forceNat pr.2.1 fun heap2 =>
       forceNat pr.2.2 fun hs2 =>
       forceNat (aset 64 tree nextFree
           (treeNode (treeCount tree l + treeCount tree r) l r)) fun tree =>
       let hp := insert_min_heap heap2 hs2 tree nextFree
       forceNat hp.1 fun heap => forceNat hp.2 fun hs =>
       huffMergeLoop fuel tree heap hs (nextFree + 1))
      (tree, heap, hs, nextFree)

/-- The code table (source `encoding_table_t table[256]`) as three slot
arrays: counts (32-bit), bits (256-bit, so that even the abandoned
over-32-bit code words of degenerate trees are represented exactly) and
lengths (16-bit). -/
def tCnt (t : Nat × Nat × Nat) (i : Nat) : Nat := aget 32 t.1 i

def tBits (t : Nat × Nat × Nat) (i : Nat) : Nat := aget 256 t.2.1 i

def tLen (t : Nat × Nat × Nat) (i : Nat) : Nat := aget 16 t.2.2 i

/-- `make_encoded_word` (lines 757..771), with fuel for the recursion on
arena indices (children of a merge node have strictly smaller indices,
so fuel 512 always suffices for trees built by `huffMergeLoop`).
`bits | (1 << len)` is `bits + 2^len`: bit `len` of `bits` is clear, as
only bits below `len` are ever set. -/
def make_encoded_word (tree : Nat) : Nat → Nat × Nat × Nat → Nat → Nat → Nat → Nat × Nat × Nat
  | 0, tb, _, _, _ => tb
  | fuel + 1, tb, node, bits, len =>
    cond (Nat.blt node 256)
      (aset 32 tb.1 node (treeCount tree node), aset 256 tb.2.1 node bits, aset 16 tb.2.2 node len)
      (let tb := make_encoded_word tree fuel tb (treeLeft tree node) bits (len + 1)
       forceNat tb.1 fun c =>
       forceNat tb.2.1 fun b =>
       forceNat tb.2.2 fun l =>
       make_encoded_word tree fuel (c, b, l) (treeRight tree node) (bits + 2 ^ len) (len + 1))

/-- Histogram of the emitted bytes: `qoi_write_8_histo` /
`qoi_write_32_histo` increment `histo[v]` once per emitted byte. -/
def histogramOf (bytes : List Nat) : Nat :=
  bytes.foldl (fun h b => forceNat (aset 32 h b (aget 32 h b + 1)) id) 0

/-- The complete code-table construction of `qoi_huff_encode` from the
byte histogram of the base body. -/
def huffTableOf (body : List Nat) : Nat × Nat × Nat :=
  let histo := histogramOf body
  let st := huffInitLoop histo 256 0 0 0 0
  let m := huffMergeLoop 256 st.1 st.2.1 st.2.2 256
  let root := pop_min_heap m.2.1 m.2.2.1 m.1
  make_encoded_word m.1 512 (0, 0, 0) root.1 0 0

/-- `table[i].len > QOI_HUFF_MAX_BIT_NUM` for some symbol (the in-loop
early return of lines 983..987; the returned value does not depend on
where in the loop the first long symbol sits). -/
def huffHasLongCode (t : Nat × Nat × Nat) : Prop :=
  ((List.range 256).any fun i => Nat.blt 32 (tLen t i)) = true

instance (t : Nat × Nat × Nat) : Decidable (huffHasLongCode t) := by
  unfold huffHasLongCode; infer_instance

/-- `expectedSize` (lines 979..989): the `unsigned int` accumulator
starts at `(1024+256)*8` and adds `table[i].count * table[i].len` for
every symbol; every product and every addition wraps modulo 2^32, and a
chain of operations each taken modulo 2^32 equals the exact sum taken
modulo 2^32 once at the end.  The wrapped total is then divided by 8. -/
def huffExpectedSize (t : Nat × Nat × Nat) : Nat :=
  ((1024 + 256) * 8 + ((List.range 256).map fun i => tCnt t i * tLen t i).sum) % 4294967296 / 8

def qoiWrite16 (v : Nat) : List Nat := [v / 2 ^ 8 % 256, v % 256]

def qoiWrite24 (v : Nat) : List Nat := [v / 2 ^ 16 % 256, v / 2 ^ 8 % 256, v % 256]

/-- The codebook emission loop (lines 1011..1022): per symbol one length
byte, then `bits` as 32-, 24- or 16-bit big-endian. -/
def codebookBytes (t : Nat × Nat × Nat) : List Nat :=
  ((List.range 256).map fun i =>
    tLen t i ::
      cond (Nat.blt 24 (tLen t i)) (qoiWrite32 (tBits t i))
        (cond (Nat.blt 16 (tLen t i)) (qoiWrite24 (tBits t i)) (qoiWrite16 (tBits t i)))).flatten

/-- Bit-packer state: finished 32-bit words, the word under
construction, and the bit cursor within it. -/
structure PackSt where
  words : List Nat
  cur : Nat
  bitIdx : Nat
deriving DecidableEq, Repr

/-- Packing one body byte (lines 1029..1048).
`huffwords[wordIdx] |= (bits << bitIdx) & ~((~0) << 32)` ORs the shifted
code truncated to 32 bits into the current word; since the current word
only has bits below `bitIdx` set, the OR is `+`.  On overflow past the
word boundary the high part `bits >> (len - bitIdx)` starts the next
word. -/
def packSymbol (t : Nat × Nat × Nat) (st : PackSt) (b : Nat) : PackSt :=
  let bits := tBits t b
  let len := tLen t b
  let cur := st.cur + bits * 2 ^ st.bitIdx % 2 ^ 32
  let newBitIdx := st.bitIdx + len
  cond (Nat.ble 32 newBitIdx)
    ⟨st.words ++ [cur],
      cond (Nat.blt 32 newBitIdx) (bits / 2 ^ (len - newBitIdx % 32)) 0,
      newBitIdx % 32⟩
    ⟨st.words, cur, newBitIdx⟩

/-- A 32-bit word serialised to little-endian bytes (the words buffer is
returned as a byte pointer on a little-endian machine). -/
def wordToBytes (w : Nat) : List Nat :=
  [w % 256, w / 2 ^ 8 % 256, w / 2 ^ 16 % 256, w / 2 ^ 24 % 256]

/-- `qoi_huff_encode` (lines 775..1062).  The base-stream pass (lines
800..904) is byte-for-byte the loop of `qoi_encode` — `qoi_write_8_histo`
additionally counts each emitted byte, modelled by `histogramOf` over the
emitted body.  `desc->colorspace & ~QOI_HUFF_ENCODED_BIT` equals
`desc.colorspace` (validation forces it ≤ 1).  The up-to-3 alignment
bytes between the codebook and the packed words are uninitialised in C
and never read by the decoder; they are modelled as 0.  The size test
`expectedSize > p * 0.97` (line 992) multiplies in `double`: `0.97` as a
double is `97/100 - 0.24/2^53`, both operands convert exactly, and for
`p < 2^32` the error `p * 0.24/2^53` of the product is below half an ulp
of the result, so the rounded product is the double nearest `97*p/100`
and the comparison against the integer `expectedSize` decides exactly as
the rational test `97 * p < 100 * expectedSize`. -/
def qoi_huff_encode (data : List Nat) (desc : QoiDesc) : Option (List Nat) :=
  if encBadDesc desc then none
  else
    let channels := desc.channels
    let pxLen := desc.width * desc.height * channels
    let pxEnd := pxLen - channels
    let st := encLoop data channels pxEnd (desc.width * desc.height) 0 encInit
    let base := qoiHeader desc ++ st.out ++ qoi_padding
    let body := st.out ++ qoi_padding
    let table := huffTableOf body
    if huffHasLongCode table then some base
    else if 10 * 1024 < huffExpectedSize table ∧
        97 * base.length < 100 * huffExpectedSize table then some base
    else
      let cb := qoiWrite32 QOI_MAGIC ++ qoiWrite32 desc.width ++ qoiWrite32 desc.height ++
        [desc.channels, desc.colorspace + 128] ++ codebookBytes table
      let huffOffset := (cb.length / 4 + if cb.length % 4 = 0 then 0 else 1) * 4
      let packed := body.foldl (packSymbol table) ⟨[], 0, 0⟩
      some (cb ++ List.replicate (huffOffset - cb.length) 0 ++
        ((packed.words ++ [packed.cur, 0]).map wordToBytes).flatten)

/-! ### The Huffman decoder -/

/-- Source struct `decoding_tree_t` (a tagged union in the model). -/
inductive DecNode where
  | node (left right : Int) : DecNode
  | leaf (len byteValue : Nat) : DecNode
deriving DecidableEq, Repr

def nodeGet (nodes : List DecNode) (i : Nat) : DecNode :=
  nodes.getD i (.node (-1) (-1))

def qoiRead16 (bytes : List Nat) (p : Nat) : Nat :=
  bytes.getD p 0 * 2 ^ 8 + bytes.getD (p + 1) 0

def qoiRead24 (bytes : List Nat) (p : Nat) : Nat :=
  bytes.getD p 0 * 2 ^ 16 + bytes.getD (p + 1) 0 * 2 ^ 8 + bytes.getD (p + 2) 0

/-- The short-code table fill (lines 1239..1249): for every 11-bit
pattern whose low `len` bits are `bits`, store
`((len & 0x3f) << 8) | byteValue` (disjoint fields, so `+`).  The slot
index `(i << len) | bits` is `i * 2^len + bits` for in-range `bits`. -/
def fillShort (table : List Nat) (len bits byteValue : Nat) : List Nat :=
  (List.range (2 ^ (11 - len))).foldl
    (fun t i => t.set (i * 2 ^ len + bits) (len % 64 * 256 + byteValue)) table

/-- Attach a child on the given side of a decision-tree node (the source
asserts the parent is not a leaf). -/
def attachChild (nodes : List DecNode) (parent bit : Nat) (child : Int) : List DecNode :=
  match nodeGet nodes parent with
  | .node l r => nodes.set parent (if bit = 1 then .node l child else .node child r)
  | x => nodes.set parent x

/-- The walk/build loop over the `len - 11` leading bits of a long code
(lines 1280..1339), by recursion on the number of remaining bits. -/
def insertLongLoop (len byteValue : Nat) :
    Nat → List DecNode → Nat → Nat → Nat → List DecNode × Nat
  | 0, nodes, nextFree, _, _ => (nodes, nextFree)
  | 1, nodes, nextFree, treeIdx, leadingBits =>
    let bit := leadingBits % 2
    let nodes := nodes.set nextFree (.leaf len byteValue)
    (attachChild nodes treeIdx bit (nextFree : Int), nextFree + 1)
  | remaining + 2, nodes, nextFree, treeIdx, leadingBits =>
    let bit := leadingBits % 2
    let next : Int :=
      match nodeGet nodes treeIdx with
      | .node l r => if bit = 1 then r else l
      | _ => (-1 : Int)
    if next < 0 then
      let nodes := nodes.set nextFree (.node (-1) (-1))
      let nodes := attachChild nodes treeIdx bit (nextFree : Int)
      insertLongLoop len byteValue (remaining + 1) nodes (nextFree + 1) nextFree (leadingBits / 2)
    else
      insertLongLoop len byteValue (remaining + 1) nodes nextFree next.toNat (leadingBits / 2)

/-- Inserting one long code (lines 1251..1340): find or allocate the
root for the low 11 bits (`treeIdx | (1 << 15)` is `treeIdx + 2^15`),
then walk/build the per-bit chain. -/
def insertLong (table : List Nat) (nodes : List DecNode) (nextFree len bits byteValue : Nat) :
    List Nat × List DecNode × Nat :=
  let truncatedBits := bits % 2 ^ 11
  let leadingBits := bits / 2 ^ 11
  let entry := table.getD truncatedBits 0
  let st :=
    if entry = 0 then
      (table.set truncatedBits (nextFree + 2 ^ 15),
       nodes.set nextFree (.node (-1) (-1)), nextFree + 1, nextFree)
    else (table, nodes, nextFree, entry - 2 ^ 15)
  let res := insertLongLoop len byteValue (len - 11) st.2.1 st.2.2.1 st.2.2.2 leadingBits
  (st.1, res.1, res.2)

/-- One iteration of the codebook-reading loop (lines 1208..1341); state
is (cursor, lookup table, tree arena, next free node).  `none` models
the `return -1` bounds failures. -/
def parseCodebookStep (bytes : List Nat) (size : Nat)
    (st : Nat × List Nat × List DecNode × Nat) (byteValue : Nat) :
    Option (Nat × List Nat × List DecNode × Nat) :=
  if size ≤ st.1 then none
  else
    let len := bytes.getD st.1 0
    let p := st.1 + 1
    let readRes : Option (Nat × Nat) :=
      if 24 < len then (if size < p + 4 then none else some (qoiRead32 bytes p, p + 4))
      else if 16 < len then (if size < p + 3 then none else some (qoiRead24 bytes p, p + 3))
      else (if size < p + 2 then none else some (qoiRead16 bytes p, p + 2))
    match readRes with
    | none => none
    | some (bits, p) =>
      if len ≤ 11 then
        some (p, fillShort st.2.1 len bits byteValue, st.2.2.1, st.2.2.2)
      else
        let r := insertLong st.2.1 st.2.2.1 st.2.2.2 len bits byteValue
        some (p, r.1, r.2.1, r.2.2)

/-- The 256-entry codebook parse. -/
def parseCodebook (bytes : List Nat) (size p0 : Nat) :
    Option (Nat × List Nat × List DecNode × Nat) :=
  (List.range 256).foldlM (parseCodebookStep bytes size)
    (p0, List.replicate 2048 0, List.replicate 512 (DecNode.node (-1) (-1)), 0)

/-- Little-endian 32-bit word `i` of the byte buffer
(`(const unsigned int*)bytes`). -/
def wordAt (bytes : List Nat) (i : Nat) : Nat :=
  bytes.getD (4 * i) 0 + bytes.getD (4 * i + 1) 0 * 2 ^ 8 +
    bytes.getD (4 * i + 2) 0 * 2 ^ 16 + bytes.getD (4 * i + 3) 0 * 2 ^ 24

/-- The decision-tree walk of `huff_decode_next_byte` (lines 1173..1180),
fuelled; 512 is enough for any arena the codebook parse builds. -/
def walkTree (nodes : List DecNode) : Nat → Nat → Nat → Nat × Nat
  | 0, _, _ => (0, 0)
  | fuel + 1, nodeIdx, trailing =>
    match nodeGet nodes nodeIdx with
    | .leaf len byteValue => (byteValue, len)
    | .node left right =>
      walkTree nodes fuel (if trailing % 2 = 1 then right.toNat else left.toNat) (trailing / 2)

/-- `huff_decode_next_byte` (lines 1149..1191): returns the decoded byte
and the advanced (wordIdx, bitIdx).  The 64-bit window is
`words[wordIdx] | words[wordIdx+1] << 32` shifted down by `bitIdx`; its
low 11 bits index the table; a terminal entry (high bit clear) carries
`byteValue | len << 8`, otherwise the entry points into the decision
tree which consumes the bits above position 11. -/
def huff_decode_next_byte (bytes : List Nat) (size : Nat) (table : List Nat)
    (nodes : List DecNode) (wordIdx bitIdx : Nat) : Nat × Nat × Nat :=
  if size / 4 ≤ wordIdx + 1 then (0, wordIdx, bitIdx)
  else
    let bits := (wordAt bytes wordIdx + wordAt bytes (wordIdx + 1) * 2 ^ 32) / 2 ^ bitIdx
    let leadingBits := bits % 2 ^ 11
    let entry := table.getD leadingBits 0
    let bl :=
      if entry < 2 ^ 15 then (entry % 256, entry / 256)
      else walkTree nodes 512 (entry - 2 ^ 15) (bits / 2 ^ 11)
    let bitIdx' := bitIdx + bl.2
    (bl.1, if 32 ≤ bitIdx' then wordIdx + 1 else wordIdx, bitIdx' % 32)

/-- Huffman-decoder loop state. -/
structure HDecSt where
  wordIdx : Nat
  bitIdx : Nat
  run : Nat
  index : List Px
  px : Px
  out : List Nat
deriving DecidableEq, Repr

/-- One iteration of the pixel loop of `qoi_huff_decode_buffer` (lines
1354..1405); identical chunk dispatch to the base decoder, but bytes come
from `huff_decode_next_byte`.  On `wordIdx * 4 >= size` the source
`continue`s without writing the output pixel; those uninitialised output
bytes are modelled as 0. -/
def huffDecStep (bytes : List Nat) (size : Nat) (table : List Nat) (nodes : List DecNode)
    (channels : Nat) (s : HDecSt) : HDecSt :=
  if 0 < s.run then
    { s with run := s.run - 1, out := s.out ++ writePx channels s.px }
  else
    let r1 := huff_decode_next_byte bytes size table nodes s.wordIdx s.bitIdx
    if size ≤ r1.2.1 * 4 then
      { s with wordIdx := r1.2.1, bitIdx := r1.2.2,
               out := s.out ++ List.replicate (writePx channels s.px).length 0 }
    else
      let b1 := r1.1
      let s2 :=
        if b1 = 254 then
          let r2 := huff_decode_next_byte bytes size table nodes r1.2.1 r1.2.2
          let r3 := huff_decode_next_byte bytes size table nodes r2.2.1 r2.2.2
          let r4 := huff_decode_next_byte bytes size table nodes r3.2.1 r3.2.2
          { s with wordIdx := r4.2.1, bitIdx := r4.2.2,
                   px := { r := r2.1, g := r3.1, b := r4.1, a := s.px.a } }
        else if b1 = 255 then
          let r2 := huff_decode_next_byte bytes size table nodes r1.2.1 r1.2.2
          let r3 := huff_decode_next_byte bytes size table nodes r2.2.1 r2.2.2
          let r4 := huff_decode_next_byte bytes size table nodes r3.2.1 r3.2.2
          let r5 := huff_decode_next_byte bytes size table nodes r4.2.1 r4.2.2
          { s with wordIdx := r5.2.1, bitIdx := r5.2.2,
                   px := { r := r2.1, g := r3.1, b := r4.1, a := r5.1 } }
        else if b1 / 64 = 0 then
          { s with wordIdx := r1.2.1, bitIdx := r1.2.2, px := s.index.getD b1 zeroPx }
        else if b1 / 64 = 1 then
          { s with wordIdx := r1.2.1, bitIdx := r1.2.2, px := diffPx s.px b1 }
        else if b1 / 64 = 2 then
          let r2 := huff_decode_next_byte bytes size table nodes r1.2.1 r1.2.2
          { s with wordIdx := r2.2.1, bitIdx := r2.2.2, px := lumaPx s.px b1 r2.1 }
        else
          { s with wordIdx := r1.2.1, bitIdx := r1.2.2, run := b1 % 64 }
      let s3 := { s2 with index := s2.index.set (qoiColorHash s2.px) s2.px }
      { s3 with out := s3.out ++ writePx channels s3.px }

def huffDecLoop (bytes : List Nat) (size : Nat) (table : List Nat) (nodes : List DecNode)
    (channels : Nat) : Nat → HDecSt → HDecSt
  | 0, s => s
  | n + 1, s => huffDecLoop bytes size table nodes channels n
      (huffDecStep bytes size table nodes channels s)

/-- The header-validation condition of `qoi_huff_decode` (the colorspace
is masked by `~QOI_HUFF_ENCODED_BIT` before the check). -/
def huffDecBadHeader (bytes : List Nat) : Prop :=
  qoiRead32 bytes 4 = 0 ∨ qoiRead32 bytes 8 = 0 ∨ bytes.getD 12 0 < 3 ∨
    4 < bytes.getD 12 0 ∨ 1 < bytes.getD 13 0 % 128 ∨ qoiRead32 bytes 0 ≠ QOI_MAGIC ∨
    QOI_PIXELS_MAX / qoiRead32 bytes 4 ≤ qoiRead32 bytes 8

instance (bytes : List Nat) : Decidable (huffDecBadHeader bytes) := by
  unfold huffDecBadHeader; infer_instance

/-- `qoi_huff_decode` (lines 1412..1464).  The mode bit is bit 7 of the
colorspace byte.  In plain mode `qoi_decode_buffer` (lines 1069..1131) is
the loop of `qoi_decode`, i.e. `decLoop` from cursor 14.  When the
codebook parse fails (`return -1`), the C still returns the untouched
`malloc`ed pixel buffer; its uninitialised contents are modelled as 0. -/
def qoi_huff_decode (bytes : List Nat) (channels : Nat) : Option (QoiDesc × List Nat) :=
  if ¬(channels = 0 ∨ channels = 3 ∨ channels = 4) then none
  else if bytes.length < 22 then none
  else if huffDecBadHeader bytes then none
  else
    let w := qoiRead32 bytes 4
    let h := qoiRead32 bytes 8
    let ch := bytes.getD 12 0
    let cs := bytes.getD 13 0 % 128
    let isHuff := 128 ≤ bytes.getD 13 0
    let channels := if channels = 0 then ch else channels
    if ¬ isHuff then
      some (⟨w, h, ch, cs⟩, (decLoop bytes (bytes.length - 8) channels (w * h) decInit).out)
    else
      match parseCodebook bytes bytes.length 14 with
      | none => some (⟨w, h, ch, cs⟩, List.replicate (w * h * channels) 0)
      | some st =>
        let p := st.1
        let wordIdx := p / 4 + if p % 4 = 0 then 0 else 1
        let d := huffDecLoop bytes bytes.length st.2.1 st.2.2.1 channels (w * h)
          ⟨wordIdx, 0, 0, List.replicate 64 zeroPx, initPx, []⟩
        some (⟨w, h, ch, cs⟩, d.out)

/-! ## Codebook entry offsets (for stating facts about the emitted codebook) -/

/-- Width in bytes of codebook entry `j`: one length byte plus the 2-,
3- or 4-byte bits field. -/
def cbEntryWidth (t : Nat × Nat × Nat) (j : Nat) : Nat :=
  1 + cond (Nat.blt 24 (tLen t j)) 4 (cond (Nat.blt 16 (tLen t j)) 3 2)

/-- Offset of the length byte of symbol `i` inside the emitted Huffman
stream: the 14-byte header plus all earlier entries. -/
def codebookOffset (t : Nat × Nat × Nat) (i : Nat) : Nat :=
  14 + ((List.range i).map (cbEntryWidth t)).sum

/-- The concrete 23-byte stream for the 2×1 all-black RGBA image. -/
def blackBase : List Nat :=
  [113, 111, 105, 102, 0, 0, 0, 2, 0, 0, 0, 1, 4, 0, 193, 0, 0, 0, 0, 0, 0, 0, 1]

/-- The body of the base stream (chunks plus terminator, without the
14-byte header) as produced by the encoder loop on a valid input. -/
def encBody (data : List Nat) (desc : QoiDesc) : List Nat :=
  (encLoop data desc.channels (desc.width * desc.height * desc.channels - desc.channels)
    (desc.width * desc.height) 0 encInit).out ++ qoi_padding

/-- A 64×1 RGBA test image touching many distinct byte values, so that
its Huffman table is shallow (no abandonment) while several byte values
(248..254) never occur in the base stream. -/
def p8bData : List Nat :=
  (List.range 64).flatMap fun i => [3 * i, 3 * i + 1, 3 * i + 2, 192 + i % 56]


/-- Encoder state after the first `k` pixels (the loop of `qoi_encode`
unrolled pixel by pixel). -/
def encSt (data : List Nat) (ch pxEnd : Nat) : Nat → EncSt
  | 0 => encInit
  | k + 1 =>
    encPixelStep (k * ch) pxEnd (readPx data ch (k * ch) (encSt data ch pxEnd k).prev)
      (encSt data ch pxEnd k)

/-- The `k`-th pixel of the input as the encoder reads it. -/
def pxA (data : List Nat) (ch pxEnd k : Nat) : Px :=
  readPx data ch (k * ch) (encSt data ch pxEnd k).prev

/-- All four channels are byte values. -/
def pxValid (px : Px) : Prop := px.r < 256 ∧ px.g < 256 ∧ px.b < 256 ∧ px.a < 256

/-- Relation between encoder and decoder caches: equal everywhere except
possibly slot 53 (the hash of the initial pixel), where the decoder may
hold the initial pixel — stamped when it consumed a RUN chunk for a
leading run — while the encoder still has the zero entry. -/
def IdxRel (ei di : List Px) : Prop :=
  ∀ j, j < 64 → di.getD j zeroPx = ei.getD j zeroPx ∨
    (j = 53 ∧ di.getD 53 zeroPx = initPx ∧ ei.getD 53 zeroPx = zeroPx)

/-- The encoder's previous pixel is cached at its hash slot, or it is
still the initial pixel and its slot still holds the zero entry. -/
def PrevCached (e : EncSt) : Prop :=
  e.index.getD (qoiColorHash e.prev) zeroPx = e.prev ∨
    (e.prev = initPx ∧ e.index.getD 53 zeroPx = zeroPx)

/-- The coupling invariant: after the encoder has processed `k` pixels
(with `run` of them pending in the current run), the decoder that has
consumed the chunks emitted so far — i.e. run for `k - run` pixels —
sits at the matching stream position with matching pixel, output and
(up to the slot-53 exception) matching cache. -/
structure SimInv (data : List Nat) (ch pxEnd : Nat) (B : List Nat) (cl k : Nat) : Prop where
  hp : (decLoop B cl ch (k - (encSt data ch pxEnd k).run) decInit).p =
    14 + (encSt data ch pxEnd k).out.length
  hrun : (decLoop B cl ch (k - (encSt data ch pxEnd k).run) decInit).run = 0
  hout : (decLoop B cl ch (k - (encSt data ch pxEnd k).run) decInit).out =
    ((List.range (k - (encSt data ch pxEnd k).run)).map fun j =>
      writePx ch (pxA data ch pxEnd j)).flatten
  hpx : (decLoop B cl ch (k - (encSt data ch pxEnd k).run) decInit).px =
    (encSt data ch pxEnd (k - (encSt data ch pxEnd k).run)).prev
  hpend : ∀ j, k - (encSt data ch pxEnd k).run ≤ j → j < k →
    pxA data ch pxEnd j = (encSt data ch pxEnd k).prev
  hpend2 : 0 < (encSt data ch pxEnd k).run →
    (encSt data ch pxEnd (k - (encSt data ch pxEnd k).run)).prev =
      (encSt data ch pxEnd k).prev
  hidx : IdxRel (encSt data ch pxEnd k).index
    (decLoop B cl ch (k - (encSt data ch pxEnd k).run) decInit).index
  hpc : PrevCached (encSt data ch pxEnd k)
  hdl : (decLoop B cl ch (k - (encSt data ch pxEnd k).run) decInit).index.length = 64

/-! ## Basic lemmas -/

theorem qoiHeader_length (desc : QoiDesc) : (qoiHeader desc).length = 14 := by
  simp [qoiHeader, qoiWrite32]

theorem encode_some (data : List Nat) (desc : QoiDesc) (h : ¬ encBadDesc desc) :
    qoi_encode data desc =
      some (qoiHeader desc ++
        (encLoop data desc.channels (desc.width * desc.height * desc.channels - desc.channels)
          (desc.width * desc.height) 0 encInit).out ++ qoi_padding) := by
  simp [qoi_encode, h]

/-! ## Claim theorems (first batch) -/

/-- C5: `qoi_encode` returns null exactly on validation failure —
width or height 0, channels outside {3,4}, colorspace above 1, or
`height >= 400000000 / width`.  (The null-pointer and
allocation-failure cases of the C code have no counterpart in the
embedding: the inputs are always present and allocation cannot fail.) -/
theorem c5_encode_none_iff (data : List Nat) (desc : QoiDesc) :
    qoi_encode data desc = none ↔
      (desc.width = 0 ∨ desc.height = 0 ∨ desc.channels < 3 ∨ 4 < desc.channels ∨
        1 < desc.colorspace ∨ 400000000 / desc.width ≤ desc.height) := by
  constructor
  · intro h
    by_cases hb : encBadDesc desc
    · simpa [encBadDesc, QOI_PIXELS_MAX] using hb
    · rw [encode_some data desc hb] at h
      cases h
  · intro hc
    have hb : encBadDesc desc := by simpa [encBadDesc, QOI_PIXELS_MAX] using hc
    simp [qoi_encode, hb]

/-- C7 counterexample: encoding the 2×1 RGBA image
[(0,0,0,255),(0,0,0,255)] produces the body byte 0xC1 (a RUN chunk
storing run length 2 with bias -1), not 0xC0 as the claim states. -/
theorem c7_counterexample :
    (qoi_encode [0, 0, 0, 255, 0, 0, 0, 255] ⟨2, 1, 4, 0⟩).map
        (fun S => (S.drop 14).take (S.length - 22)) = some [0xC1] ∧
      ([0xC1] : List Nat) ≠ [0xC0] := by
  constructor
  · decide
  · decide

/-- C7 amended: encoding the 2×1 RGBA image [(0,0,0,255),(0,0,0,255)]
produces a stream whose body between the 14-byte header and the 8-byte
terminator is the single byte 0xC1 (RUN of length 2, stored with bias
-1), followed by the terminator 0x00 ×7, 0x01. -/
theorem c7_amended :
    qoi_encode [0, 0, 0, 255, 0, 0, 0, 255] ⟨2, 1, 4, 0⟩ =
      some (qoiHeader ⟨2, 1, 4, 0⟩ ++ [0xC1] ++ qoi_padding) := by
  decide

/-- C4 counterexample: a 22-byte input whose header passes validation
(2×1, RGBA) but whose chunk region is empty — no chunk for either of the
two pixels — is decoded to a non-null, fully-sized buffer (the remaining
pixels repeat the pixel state, here the initial (0,0,0,255)), not to
null as the claim states. -/
theorem c4_counterexample :
    qoi_decode [113, 111, 105, 102, 0, 0, 0, 2, 0, 0, 0, 1, 4, 0, 0, 0, 0, 0, 0, 0, 0, 1] 4 =
        some (⟨2, 1, 4, 0⟩, [0, 0, 0, 255, 0, 0, 0, 255]) ∧
      qoi_decode [113, 111, 105, 102, 0, 0, 0, 2, 0, 0, 0, 1, 4, 0, 0, 0, 0, 0, 0, 0, 0, 1] 4 ≠
        none := by
  constructor
  · decide
  · decide

/-- C6: when some symbol's final code length exceeds 32 bits, or the
estimated Huffman output exceeds 10 KiB while also exceeding 97% of the
plain stream's length, `qoi_huff_encode` returns the plain base stream
unchanged (so `out_len` is the base stream's length). -/
theorem c6_huff_abandons (data : List Nat) (desc : QoiDesc) (base : List Nat)
    (hbase : qoi_encode data desc = some base)
    (hcond : huffHasLongCode (huffTableOf (base.drop 14)) ∨
      (10 * 1024 < huffExpectedSize (huffTableOf (base.drop 14)) ∧
        97 * base.length < 100 * huffExpectedSize (huffTableOf (base.drop 14)))) :
    qoi_huff_encode data desc = some base := by
  have hbad : ¬ encBadDesc desc := by
    intro hb
    rw [qoi_encode, if_pos hb] at hbase
    cases hbase
  rw [encode_some data desc hbad] at hbase
  have hb' : base = qoiHeader desc ++
      (encLoop data desc.channels (desc.width * desc.height * desc.channels - desc.channels)
        (desc.width * desc.height) 0 encInit).out ++ qoi_padding :=
    Option.some.inj hbase.symm
  subst hb'
  have hdrop : (qoiHeader desc ++
      (encLoop data desc.channels (desc.width * desc.height * desc.channels - desc.channels)
        (desc.width * desc.height) 0 encInit).out ++ qoi_padding).drop 14 =
      (encLoop data desc.channels (desc.width * desc.height * desc.channels - desc.channels)
        (desc.width * desc.height) 0 encInit).out ++ qoi_padding := by
    rw [List.append_assoc, ← qoiHeader_length desc, List.drop_left]
  rw [hdrop] at hcond
  simp only [qoi_huff_encode, if_neg hbad]
  rcases hcond with h1 | h2
  · rw [if_pos h1]
  · by_cases h1 : huffHasLongCode (huffTableOf
      ((encLoop data desc.channels (desc.width * desc.height * desc.channels - desc.channels)
        (desc.width * desc.height) 0 encInit).out ++ qoi_padding))
    · rw [if_pos h1]
    · rw [if_neg h1, if_pos h2]

/-- Witness for C6 at the 2×1 all-black RGBA image: the 253 zero-count
symbols chain into codes far longer than 32 bits, and the Huffman
encoder returns the 23-byte base stream unchanged. -/
theorem c6_witness :
    qoi_encode [0, 0, 0, 255, 0, 0, 0, 255] ⟨2, 1, 4, 0⟩ = some blackBase ∧
      huffHasLongCode (huffTableOf (blackBase.drop 14)) ∧
      qoi_huff_encode [0, 0, 0, 255, 0, 0, 0, 255] ⟨2, 1, 4, 0⟩ = some blackBase :=
  ⟨by decide, by decide,
   c6_huff_abandons [0, 0, 0, 255, 0, 0, 0, 255] ⟨2, 1, 4, 0⟩ blackBase (by decide)
     (Or.inl (by decide))⟩

/-- Byte length of one emitted codebook entry matches `cbEntryWidth`. -/
theorem cbEntry_length (t : Nat × Nat × Nat) (j : Nat) :
    (tLen t j :: cond (Nat.blt 24 (tLen t j)) (qoiWrite32 (tBits t j))
        (cond (Nat.blt 16 (tLen t j)) (qoiWrite24 (tBits t j)) (qoiWrite16 (tBits t j)))).length
      = cbEntryWidth t j := by
  unfold cbEntryWidth
  cases Nat.blt 24 (tLen t j)
  · cases Nat.blt 16 (tLen t j) <;> rfl
  · rfl

/-- The byte of the emitted codebook at the offset of symbol `i` is that
symbol's code length. -/
theorem codebook_get (t : Nat × Nat × Nat) (i : Nat) (hi : i < 256) :
    (codebookBytes t)[codebookOffset t i - 14]? = some (tLen t i) := by
  have hoff : codebookOffset t i - 14 = ((List.range i).map (cbEntryWidth t)).sum := by
    simp [codebookOffset]
  rw [hoff]
  obtain ⟨k, hk⟩ : ∃ k, 256 = i + (k + 1) := ⟨256 - i - 1, by omega⟩
  unfold codebookBytes
  rw [hk, List.range_add, List.map_append, List.flatten_append]
  have hlen : (((List.range i).map fun j =>
      tLen t j :: cond (Nat.blt 24 (tLen t j)) (qoiWrite32 (tBits t j))
        (cond (Nat.blt 16 (tLen t j)) (qoiWrite24 (tBits t j))
          (qoiWrite16 (tBits t j)))).flatten).length
      = ((List.range i).map (cbEntryWidth t)).sum := by
    rw [List.length_flatten, List.map_map]
    congr 1
    apply List.map_congr_left
    intro j _
    exact cbEntry_length t j
  rw [List.getElem?_append_right (le_of_eq hlen)]
  rw [hlen, Nat.sub_self, List.range_succ_eq_map, List.map_cons, List.map_cons,
    List.flatten_cons]
  simp

/-- In any emitted Huffman stream — a 14-byte header, the codebook, then
alignment and packed words — the byte at symbol `i`'s codebook offset is
that symbol's code length. -/
theorem huff_stream_get (t : Nat × Nat × Nat) (pre rest1 rest2 : List Nat)
    (h14 : pre.length = 14) (i : Nat) (hi : i < 256) :
    (((pre ++ codebookBytes t) ++ rest1) ++ rest2)[codebookOffset t i]? = some (tLen t i) := by
  rw [List.append_assoc, List.append_assoc]
  have hle : pre.length ≤ codebookOffset t i := by
    rw [h14]; unfold codebookOffset; omega
  rw [List.getElem?_append_right hle, h14]
  have hsome := codebook_get t i hi
  have hlt : codebookOffset t i - 14 < (codebookBytes t).length := by
    by_contra hc
    rw [List.getElem?_eq_none (le_of_not_lt hc)] at hsome
    cases hsome
  rw [List.getElem?_append_left hlt]
  exact hsome

/-- C8 counterexample, at the 64×1 test image: symbol 248 never occurs
in the base stream (histogram count 0), its codebook entry starts at
offset 758 of the emitted Huffman stream (which is genuinely
Huffman-packed: the output differs from the base stream), and the length
byte there is 11, not 0 — all 256 symbols are inserted into the heap, so
absent symbols still receive code words. -/
theorem c8_counterexample :
    (qoi_encode p8bData ⟨64, 1, 4, 0⟩).map
        (fun base => aget 32 (histogramOf (base.drop 14)) 248) = some 0 ∧
    (qoi_encode p8bData ⟨64, 1, 4, 0⟩).map
        (fun base => codebookOffset (huffTableOf (base.drop 14)) 248) = some 758 ∧
    (qoi_huff_encode p8bData ⟨64, 1, 4, 0⟩).map
        (fun H => (H.drop 758).take 1) = some [11] ∧
    qoi_huff_encode p8bData ⟨64, 1, 4, 0⟩ ≠ qoi_encode p8bData ⟨64, 1, 4, 0⟩ ∧
    (11 : Nat) ≠ 0 := by
  refine ⟨by decide, by decide, by decide, by decide, by decide⟩

/-- C8 amended: when the Huffman encoder does not abandon (no code
length exceeds 32 bits and the estimated size is acceptable), the
codebook length byte emitted for EVERY symbol `i` — occurring in the
base stream or not — is its code length `tLen` from the constructed
tree; symbols with zero histogram count thus get whatever length the
tree assigns them, in general nonzero, not a zero length byte. -/
theorem c8_amended (data : List Nat) (desc : QoiDesc) (i : Nat) (hi : i < 256)
    (hbad : ¬ encBadDesc desc)
    (hno : ¬ huffHasLongCode (huffTableOf (encBody data desc)))
    (hsz : ¬ (10 * 1024 < huffExpectedSize (huffTableOf (encBody data desc)) ∧
      97 * (qoiHeader desc ++ encBody data desc).length <
        100 * huffExpectedSize (huffTableOf (encBody data desc)))) :
    (qoi_huff_encode data desc).bind
        (fun H => H[codebookOffset (huffTableOf (encBody data desc)) i]?) =
      some (tLen (huffTableOf (encBody data desc)) i) := by
  have hno' := hno
  have hsz' := hsz
  simp only [encBody] at hno' hsz'
  rw [← List.append_assoc] at hsz'
  simp only [qoi_huff_encode, if_neg hbad]
  rw [if_neg hno', if_neg hsz']
  simp only [Option.bind_some, Option.some_bind]
  exact huff_stream_get _ _ _ _ (by simp [qoiWrite32]) i hi

/-- Witness for the amended C8 at the 64×1 test image and symbol 248. -/
theorem c8_amended_witness :
    (248 < 256 ∧ ¬ encBadDesc ⟨64, 1, 4, 0⟩ ∧
      ¬ huffHasLongCode (huffTableOf (encBody p8bData ⟨64, 1, 4, 0⟩))) ∧
    (qoi_huff_encode p8bData ⟨64, 1, 4, 0⟩).bind
        (fun H => H[codebookOffset (huffTableOf (encBody p8bData ⟨64, 1, 4, 0⟩)) 248]?) =
      some (tLen (huffTableOf (encBody p8bData ⟨64, 1, 4, 0⟩)) 248) :=
  ⟨⟨by decide, by decide, by decide⟩,
    c8_amended p8bData ⟨64, 1, 4, 0⟩ 248 (by decide) (by decide) (by decide) (by decide)⟩


set_option maxHeartbeats 2000000

theorem encLoop_encSt (data : List Nat) (ch pxEnd : Nat) :
    ∀ n k, encLoop data ch pxEnd n (k * ch) (encSt data ch pxEnd k) =
      encSt data ch pxEnd (k + n) := by
  intro n
  induction n with
  | zero => intro k; rfl
  | succ m ih =>
    intro k
    show encLoop data ch pxEnd m (k * ch + ch) _ = _
    have h1 : k * ch + ch = (k + 1) * ch := by ring
    rw [h1]
    have h2 : encPixelStep (k * ch) pxEnd (readPx data ch (k * ch) (encSt data ch pxEnd k).prev)
        (encSt data ch pxEnd k) = encSt data ch pxEnd (k + 1) := rfl
    rw [h2, ih (k + 1)]
    congr 1
    omega

theorem encSt_prev (data : List Nat) (ch pxEnd k : Nat) :
    (encSt data ch pxEnd (k + 1)).prev = pxA data ch pxEnd k := by
  show (encPixelStep _ _ _ _).prev = _
  unfold pxA
  simp only [encPixelStep]
  split_ifs <;> rfl

theorem encSt_run_le (data : List Nat) (ch pxEnd : Nat) :
    ∀ k, (encSt data ch pxEnd k).run ≤ k ∧ (encSt data ch pxEnd k).run < 62 := by
  intro k
  induction k with
  | zero => exact ⟨le_refl 0, by show encInit.run < 62; simp [encInit]⟩
  | succ m ih =>
    show (encPixelStep _ _ _ _).run ≤ m + 1 ∧ (encPixelStep _ _ _ _).run < 62
    simp only [encPixelStep]
    split_ifs <;> simp_all <;> omega

theorem encSt_out_ext_one (data : List Nat) (ch pxEnd k : Nat) :
    (encSt data ch pxEnd k).out <+: (encSt data ch pxEnd (k + 1)).out := by
  show _ <+: (encPixelStep _ _ _ _).out
  simp only [encPixelStep]
  split_ifs <;> simp [List.prefix_append]

theorem encSt_out_ext (data : List Nat) (ch pxEnd : Nat) {k n : Nat} (h : k ≤ n) :
    (encSt data ch pxEnd k).out <+: (encSt data ch pxEnd n).out := by
  induction n with
  | zero => cases Nat.le_zero.mp h; exact List.prefix_refl _
  | succ m ih =>
    rcases Nat.lt_or_ge k (m + 1) with hlt | hge
    · exact (ih (Nat.lt_succ_iff.mp hlt)).trans (encSt_out_ext_one data ch pxEnd m)
    · have : k = m + 1 := le_antisymm h hge
      subst this
      exact List.prefix_refl _
theorem decLoop_add (B : List Nat) (cl ch a b : Nat) (s : DecSt) :
    decLoop B cl ch (a + b) s = decLoop B cl ch b (decLoop B cl ch a s) := by
  induction a generalizing s with
  | zero => rw [Nat.zero_add]; rfl
  | succ m ih =>
    have h1 : m + 1 + b = (m + b) + 1 := by omega
    rw [h1]
    show decLoop B cl ch (m + b) (decPixelStep B cl ch s) = _
    rw [ih (decPixelStep B cl ch s)]
    rfl

/-- A decoder step while a run is pending: replay the pixel. -/
theorem decStep_run (B : List Nat) (cl ch : Nat) (s : DecSt) (h : 0 < s.run) :
    decPixelStep B cl ch s =
      { s with run := s.run - 1, out := s.out ++ writePx ch s.px } := by
  simp [decPixelStep, h]

/-- Replaying `q` pending run pixels. -/
theorem decLoop_run (B : List Nat) (cl ch : Nat) :
    ∀ q (s : DecSt), q ≤ s.run →
      decLoop B cl ch q s =
        { s with run := s.run - q,
                 out := s.out ++ (List.replicate q (writePx ch s.px)).flatten } := by
  intro q
  induction q with
  | zero => intro s _; show s = _; cases s; simp
  | succ m ih =>
    intro s h
    show decLoop B cl ch m (decPixelStep B cl ch s) = _
    rw [decStep_run B cl ch s (by omega)]
    rw [ih _ (by simp; omega)]
    simp [List.replicate_succ]
    omega

/-- A decoder step reading a RUN chunk. -/
theorem decStep_runChunk (B : List Nat) (cl ch : Nat) (s : DecSt) (b1 : Nat)
    (h0 : s.run = 0) (hp : s.p < cl) (hb : B.getD s.p 0 = b1)
    (hlo : 192 ≤ b1) (hhi : b1 ≤ 253) :
    decPixelStep B cl ch s =
      { s with p := s.p + 1, run := b1 % 64,
               index := s.index.set (qoiColorHash s.px) s.px,
               out := s.out ++ writePx ch s.px } := by
  have h254 : ¬ b1 = 254 := by omega
  have h255 : ¬ b1 = 255 := by omega
  have hd : b1 / 64 = 3 := by omega
  have hb' : B[s.p]?.getD 0 = b1 := by simpa [List.getD_eq_getElem?_getD] using hb
  simp [decPixelStep, h0, hp, hb', h254, h255, hd]

/-- A decoder step reading an INDEX chunk. -/
theorem decStep_index (B : List Nat) (cl ch : Nat) (s : DecSt) (b1 : Nat)
    (h0 : s.run = 0) (hp : s.p < cl) (hb : B.getD s.p 0 = b1) (hhi : b1 < 64) :
    decPixelStep B cl ch s =
      { s with p := s.p + 1, px := s.index.getD b1 zeroPx,
               index := s.index.set (qoiColorHash (s.index.getD b1 zeroPx))
                 (s.index.getD b1 zeroPx),
               out := s.out ++ writePx ch (s.index.getD b1 zeroPx) } := by
  have h254 : ¬ b1 = 254 := by omega
  have h255 : ¬ b1 = 255 := by omega
  have hd : b1 / 64 = 0 := by omega
  have hb' : B[s.p]?.getD 0 = b1 := by simpa [List.getD_eq_getElem?_getD] using hb
  simp [decPixelStep, h0, hp, hb', h254, h255, hd]

/-- A decoder step reading a DIFF chunk. -/
theorem decStep_diff (B : List Nat) (cl ch : Nat) (s : DecSt) (b1 : Nat)
    (h0 : s.run = 0) (hp : s.p < cl) (hb : B.getD s.p 0 = b1)
    (hlo : 64 ≤ b1) (hhi : b1 < 128) :
    decPixelStep B cl ch s =
      { s with p := s.p + 1, px := diffPx s.px b1,
               index := s.index.set (qoiColorHash (diffPx s.px b1)) (diffPx s.px b1),
               out := s.out ++ writePx ch (diffPx s.px b1) } := by
  have h254 : ¬ b1 = 254 := by omega
  have h255 : ¬ b1 = 255 := by omega
  have hd0 : ¬ b1 / 64 = 0 := by omega
  have hd : b1 / 64 = 1 := by omega
  have hb' : B[s.p]?.getD 0 = b1 := by simpa [List.getD_eq_getElem?_getD] using hb
  simp [decPixelStep, h0, hp, hb', h254, h255, hd0, hd]

/-- A decoder step reading a LUMA chunk. -/
theorem decStep_luma (B : List Nat) (cl ch : Nat) (s : DecSt) (b1 : Nat)
    (h0 : s.run = 0) (hp : s.p < cl) (hb : B.getD s.p 0 = b1)
    (hlo : 128 ≤ b1) (hhi : b1 < 192) :
    decPixelStep B cl ch s =
      { s with p := s.p + 2,
               px := lumaPx s.px b1 (B.getD (s.p + 1) 0),
               index := s.index.set
                 (qoiColorHash (lumaPx s.px b1 (B.getD (s.p + 1) 0)))
                 (lumaPx s.px b1 (B.getD (s.p + 1) 0)),
               out := s.out ++ writePx ch (lumaPx s.px b1 (B.getD (s.p + 1) 0)) } := by
  have h254 : ¬ b1 = 254 := by omega
  have h255 : ¬ b1 = 255 := by omega
  have hd0 : ¬ b1 / 64 = 0 := by omega
  have hd1 : ¬ b1 / 64 = 1 := by omega
  have hd : b1 / 64 = 2 := by omega
  have hb' : B[s.p]?.getD 0 = b1 := by simpa [List.getD_eq_getElem?_getD] using hb
  simp [decPixelStep, h0, hp, hb', h254, h255, hd0, hd1, hd]

/-- A decoder step reading an RGB chunk. -/
theorem decStep_rgb (B : List Nat) (cl ch : Nat) (s : DecSt)
    (h0 : s.run = 0) (hp : s.p < cl) (hb : B.getD s.p 0 = 254) :
    decPixelStep B cl ch s =
      (let px : Px := { r := B.getD (s.p + 1) 0, g := B.getD (s.p + 2) 0,
                        b := B.getD (s.p + 3) 0, a := s.px.a }
      { s with p := s.p + 4, px := px,
               index := s.index.set (qoiColorHash px) px,
               out := s.out ++ writePx ch px }) := by
  have hb' : B[s.p]?.getD 0 = 254 := by simpa [List.getD_eq_getElem?_getD] using hb
  simp [decPixelStep, h0, hp, hb']

/-- A decoder step reading an RGBA chunk. -/
theorem decStep_rgba (B : List Nat) (cl ch : Nat) (s : DecSt)
    (h0 : s.run = 0) (hp : s.p < cl) (hb : B.getD s.p 0 = 255) :
    decPixelStep B cl ch s =
      (let px : Px := { r := B.getD (s.p + 1) 0, g := B.getD (s.p + 2) 0,
                        b := B.getD (s.p + 3) 0, a := B.getD (s.p + 4) 0 }
      { s with p := s.p + 5, px := px,
               index := s.index.set (qoiColorHash px) px,
               out := s.out ++ writePx ch px }) := by
  have hb' : B[s.p]?.getD 0 = 255 := by simpa [List.getD_eq_getElem?_getD] using hb
  simp [decPixelStep, h0, hp, hb']

/-- Decoding a DIFF chunk recovers the encoded pixel. -/
theorem diff_decode (prev px : Px) (hp : pxValid prev) (hx : pxValid px)
    (ha : px.a = prev.a)
    (h : -3 < sc ((px.r : Int) - prev.r) ∧ sc ((px.r : Int) - prev.r) < 2 ∧
         -3 < sc ((px.g : Int) - prev.g) ∧ sc ((px.g : Int) - prev.g) < 2 ∧
         -3 < sc ((px.b : Int) - prev.b) ∧ sc ((px.b : Int) - prev.b) < 2) :
    diffPx prev (64 + (sc ((px.r : Int) - prev.r) + 2).toNat * 16 +
      (sc ((px.g : Int) - prev.g) + 2).toNat * 4 +
      (sc ((px.b : Int) - prev.b) + 2).toNat) = px := by
  obtain ⟨pr, pg, pb, pa⟩ := px
  obtain ⟨qr, qg, qb, qa⟩ := prev
  simp only [pxValid] at hp hx
  simp only [sc] at h ⊢
  simp only [diffPx, Px.mk.injEq] at *
  obtain ⟨h1, h2, h3, h4, h5, h6⟩ := h
  refine ⟨?_, ?_, ?_, ?_⟩ <;> omega

/-- Decoding a LUMA chunk recovers the encoded pixel. -/
theorem luma_decode (prev px : Px) (hp : pxValid prev) (hx : pxValid px)
    (ha : px.a = prev.a)
    (h : -9 < sc (sc ((px.r : Int) - prev.r) - sc ((px.g : Int) - prev.g)) ∧
         sc (sc ((px.r : Int) - prev.r) - sc ((px.g : Int) - prev.g)) < 8 ∧
         -33 < sc ((px.g : Int) - prev.g) ∧ sc ((px.g : Int) - prev.g) < 32 ∧
         -9 < sc (sc ((px.b : Int) - prev.b) - sc ((px.g : Int) - prev.g)) ∧
         sc (sc ((px.b : Int) - prev.b) - sc ((px.g : Int) - prev.g)) < 8) :
    lumaPx prev (128 + (sc ((px.g : Int) - prev.g) + 32).toNat)
      ((sc (sc ((px.r : Int) - prev.r) - sc ((px.g : Int) - prev.g)) + 8).toNat * 16 +
       (sc (sc ((px.b : Int) - prev.b) - sc ((px.g : Int) - prev.g)) + 8).toNat) = px := by
  obtain ⟨pr, pg, pb, pa⟩ := px
  obtain ⟨qr, qg, qb, qa⟩ := prev
  simp only [pxValid] at hp hx
  simp only [sc] at h ⊢
  simp only [lumaPx, Px.mk.injEq] at *
  obtain ⟨h1, h2, h3, h4, h5, h6⟩ := h
  refine ⟨?_, ?_, ?_, ?_⟩ <;> omega

theorem hash_initPx : qoiColorHash initPx = 53 := by decide

theorem hash_lt (px : Px) : qoiColorHash px < 64 :=
  Nat.mod_lt _ (by norm_num)

theorem getD_set_self (l : List Px) (i : Nat) (v : Px) (h : i < l.length) :
    (l.set i v).getD i zeroPx = v := by
  simp [List.getD_eq_getElem?_getD, List.getElem?_set_self, h]

theorem getD_set_ne (l : List Px) (i j : Nat) (v : Px) (h : i ≠ j) :
    (l.set i v).getD j zeroPx = l.getD j zeroPx := by
  simp [List.getD_eq_getElem?_getD, List.getElem?_set_ne h]

theorem idxRel_set_both {ei di : List Px} (h : IdxRel ei di) (j0 : Nat) (v : Px)
    (hei : ei.length = 64) (hdi : di.length = 64) (hj0 : j0 < 64) :
    IdxRel (ei.set j0 v) (di.set j0 v) := by
  intro j hj
  rcases eq_or_ne j0 j with rfl | hne
  · left
    rw [getD_set_self _ _ _ (by omega), getD_set_self _ _ _ (by omega)]
  · rcases h j hj with heq | ⟨rfl, hd53, he53⟩
    · left
      rw [getD_set_ne _ _ _ _ hne, getD_set_ne _ _ _ _ hne, heq]
    · right
      exact ⟨rfl, by rw [getD_set_ne _ _ _ _ hne]; exact hd53,
        by rw [getD_set_ne _ _ _ _ hne]; exact he53⟩

/-- Stamping the decoder cache with a value the encoder cache already
holds at that slot keeps the relation. -/
theorem idxRel_stamp_known {ei di : List Px} (h : IdxRel ei di) (j0 : Nat) (v : Px)
    (hdi : di.length = 64) (hj0 : j0 < 64) (hev : ei.getD j0 zeroPx = v) :
    IdxRel ei (di.set j0 v) := by
  intro j hj
  rcases eq_or_ne j0 j with rfl | hne
  · left
    rw [getD_set_self _ _ _ (by omega), hev]
  · rcases h j hj with heq | ⟨rfl, hd53, he53⟩
    · left
      rw [getD_set_ne _ _ _ _ hne, heq]
    · right
      exact ⟨rfl, by rw [getD_set_ne _ _ _ _ hne]; exact hd53, he53⟩

/-- Stamping the decoder cache with the initial pixel while the
encoder's slot 53 is still zero creates exactly the allowed divergence. -/
theorem idxRel_stamp_init {ei di : List Px} (h : IdxRel ei di)
    (hdi : di.length = 64) (he53 : ei.getD 53 zeroPx = zeroPx) :
    IdxRel ei (di.set 53 initPx) := by
  intro j hj
  rcases eq_or_ne 53 j with rfl | hne
  · right
    exact ⟨rfl, getD_set_self _ _ _ (by omega), he53⟩
  · rcases h j hj with heq | ⟨rfl, hd53, he53'⟩
    · left
      rw [getD_set_ne _ _ _ _ hne, heq]
    · exact absurd rfl hne

theorem pxValid_initPx : pxValid initPx := by
  simp [pxValid, initPx]

theorem getD_lt_of_mem {data : List Nat} (hdata : ∀ b ∈ data, b < 256) (i : Nat) :
    data.getD i 0 < 256 := by
  rcases Nat.lt_or_ge i data.length with h | h
  · rw [List.getD_eq_getElem data 0 h]
    exact hdata _ (List.getElem_mem h)
  · rw [List.getD_eq_default data 0 h]
    norm_num

theorem readPx_valid {data : List Nat} (hdata : ∀ b ∈ data, b < 256)
    {prev : Px} (hp : pxValid prev) (ch pos : Nat) :
    pxValid (readPx data ch pos prev) := by
  unfold readPx pxValid
  split_ifs <;>
    exact ⟨getD_lt_of_mem hdata _, getD_lt_of_mem hdata _, getD_lt_of_mem hdata _,
      by first | exact getD_lt_of_mem hdata _ | exact hp.2.2.2⟩

theorem prevA_valid {data : List Nat} (hdata : ∀ b ∈ data, b < 256) (ch pxEnd : Nat) :
    ∀ k, pxValid ((encSt data ch pxEnd k).prev) := by
  intro k
  induction k with
  | zero => exact pxValid_initPx
  | succ m ih =>
    rw [encSt_prev]
    exact readPx_valid hdata ih _ _

theorem pxA_valid {data : List Nat} (hdata : ∀ b ∈ data, b < 256) (ch pxEnd k : Nat) :
    pxValid (pxA data ch pxEnd k) :=
  readPx_valid hdata (prevA_valid hdata ch pxEnd k) _ _

theorem encSt_index_length (data : List Nat) (ch pxEnd : Nat) :
    ∀ k, (encSt data ch pxEnd k).index.length = 64 := by
  intro k
  induction k with
  | zero => simp [encSt, encInit]
  | succ m ih =>
    show (encPixelStep _ _ _ _).index.length = 64
    simp only [encPixelStep]
    split_ifs <;> simp_all
/-- Reading an emitted byte through the parametric stream `B`. -/
theorem read_emitted {B outN : List Nat}
    (hB : ∀ i, i < outN.length → B.getD (14 + i) 0 = outN.getD i 0)
    {pre nb post : List Nat} (h : outN = pre ++ (nb ++ post)) (j : Nat)
    (hj : j < nb.length) :
    B.getD (14 + (pre.length + j)) 0 = nb.getD j 0 := by
  have hlen : pre.length + j < outN.length := by
    subst h; simp; omega
  rw [hB _ hlen, h]
  simp only [List.getD_eq_getElem?_getD]
  rw [List.getElem?_append_right (by omega), Nat.add_sub_cancel_left,
    List.getElem?_append_left hj]

/-- A block of the output whose pixels all coincide. -/
theorem flatten_range_const {α : Type} (f : Nat → List α) (c : List α) (dk m : Nat)
    (h : ∀ j, dk ≤ j → j < dk + m → f j = c) :
    ((List.range (dk + m)).map f).flatten =
      ((List.range dk).map f).flatten ++ (List.replicate m c).flatten := by
  rw [List.range_add, List.map_append, List.flatten_append]
  congr 2
  rw [List.map_map]
  apply List.eq_replicate_iff.mpr
  constructor
  · simp
  · intro b hb
    simp only [List.mem_map, List.mem_range, Function.comp] at hb
    obtain ⟨i, hi, rfl⟩ := hb
    exact h _ (by omega) (by omega)

theorem decStep_index_length (B : List Nat) (cl ch : Nat) (s : DecSt) :
    (decPixelStep B cl ch s).index.length = s.index.length := by
  simp only [decPixelStep]
  split_ifs <;> simp

theorem decLoop_index_length (B : List Nat) (cl ch : Nat) :
    ∀ n (s : DecSt), (decLoop B cl ch n s).index.length = s.index.length := by
  intro n
  induction n with
  | zero => intro s; rfl
  | succ m ih =>
    intro s
    show (decLoop B cl ch m (decPixelStep B cl ch s)).index.length = _
    rw [ih, decStep_index_length]

theorem chunk_sim (B outN : List Nat) (ch cl pos pxEnd : Nat)
    (E1 : EncSt) (D1 : DecSt) (px : Px)
    (hrun1 : E1.run = 0) (hne : ¬ px = E1.prev)
    (hxv : pxValid px) (hpv : pxValid E1.prev)
    (hp1 : D1.p = 14 + E1.out.length) (hd1 : D1.run = 0) (hpx1 : D1.px = E1.prev)
    (hidx1 : IdxRel E1.index D1.index)
    (hdl : D1.index.length = 64) (hel : E1.index.length = 64)
    (hB : ∀ i, i < outN.length → B.getD (14 + i) 0 = outN.getD i 0)
    (hcl : cl = 14 + outN.length)
    (hpre : (encPixelStep pos pxEnd px E1).out <+: outN) :
    decPixelStep B cl ch D1 =
      { D1 with p := 14 + (encPixelStep pos pxEnd px E1).out.length, px := px,
                index := D1.index.set (qoiColorHash px) px,
                out := D1.out ++ writePx ch px } ∧
    (encPixelStep pos pxEnd px E1).run = 0 ∧
    (encPixelStep pos pxEnd px E1).prev = px ∧
    IdxRel (encPixelStep pos pxEnd px E1).index (D1.index.set (qoiColorHash px) px) ∧
    PrevCached (encPixelStep pos pxEnd px E1) ∧
    (encPixelStep pos pxEnd px E1).index.length = 64 := by
  have hs1 : ¬ 0 < E1.run := by omega
  by_cases hhit : E1.index.getD (qoiColorHash px) zeroPx = px
  · -- INDEX chunk
    have hE2 : encPixelStep pos pxEnd px E1 =
        { E1 with prev := px, out := E1.out ++ [qoiColorHash px] } := by
      simp only [encPixelStep, if_neg hne, if_neg hs1, if_pos hhit]
    obtain ⟨post, hpost⟩ := hpre
    rw [hE2] at hpost
    have houtN : outN = E1.out ++ ([qoiColorHash px] ++ post) := by
      rw [← hpost, List.append_assoc]
    have hb1 : B.getD D1.p 0 = qoiColorHash px := by
      have := read_emitted hB houtN 0 (by simp)
      simpa [hp1] using this
    have hplt : D1.p < cl := by
      rw [hp1, hcl, houtN]
      simp only [List.length_append, List.length_cons, List.length_nil]
      omega
    have hDpx : D1.index.getD (qoiColorHash px) zeroPx = px := by
      rcases hidx1 (qoiColorHash px) (hash_lt px) with heq | ⟨h53, _, he53⟩
      · rw [heq]; exact hhit
      · exfalso
        rw [h53] at hhit
        rw [hhit] at he53
        have h0 : qoiColorHash px = 0 := by rw [he53]; decide
        omega
    have hstep := decStep_index B cl ch D1 (qoiColorHash px) hd1 hplt hb1 (hash_lt px)
    rw [hDpx] at hstep
    refine ⟨?_, by rw [hE2]; exact hrun1, by rw [hE2], ?_, ?_, by rw [hE2]; exact hel⟩
    · have hplen : 14 + (({ E1 with prev := px, out := E1.out ++ [qoiColorHash px] } :
          EncSt)).out.length = D1.p + 1 := by
        simp only [List.length_append, List.length_cons, List.length_nil, hp1]
        omega
      rw [hE2, hplen, hstep]
    · rw [hE2]
      exact idxRel_stamp_known hidx1 _ px hdl (hash_lt px) hhit
    · rw [hE2]
      unfold PrevCached
      left
      exact hhit
  · -- cache miss: the cache is updated on both sides
    by_cases ha : px.a = E1.prev.a
    · by_cases hdiff : -3 < sc ((px.r : Int) - (E1.prev.r : Int)) ∧
          sc ((px.r : Int) - (E1.prev.r : Int)) < 2 ∧
          -3 < sc ((px.g : Int) - (E1.prev.g : Int)) ∧
          sc ((px.g : Int) - (E1.prev.g : Int)) < 2 ∧
          -3 < sc ((px.b : Int) - (E1.prev.b : Int)) ∧
          sc ((px.b : Int) - (E1.prev.b : Int)) < 2
      · -- DIFF chunk
        have hE2 : encPixelStep pos pxEnd px E1 =
            { E1 with index := E1.index.set (qoiColorHash px) px, prev := px,
                      out := E1.out ++
                        [64 + (sc ((px.r : Int) - (E1.prev.r : Int)) + 2).toNat * 16 +
                          (sc ((px.g : Int) - (E1.prev.g : Int)) + 2).toNat * 4 +
                          (sc ((px.b : Int) - (E1.prev.b : Int)) + 2).toNat] } := by
          simp only [encPixelStep, if_neg hne, if_neg hs1, if_neg hhit, if_pos ha,
            if_pos hdiff]
        obtain ⟨post, hpost⟩ := hpre
        rw [hE2] at hpost
        have houtN : outN = E1.out ++
            ([64 + (sc ((px.r : Int) - (E1.prev.r : Int)) + 2).toNat * 16 +
              (sc ((px.g : Int) - (E1.prev.g : Int)) + 2).toNat * 4 +
              (sc ((px.b : Int) - (E1.prev.b : Int)) + 2).toNat] ++ post) := by
          rw [← hpost, List.append_assoc]
        obtain ⟨h1, h2, h3, h4, h5, h6⟩ := hdiff
        have hb1 : B.getD D1.p 0 =
            64 + (sc ((px.r : Int) - (E1.prev.r : Int)) + 2).toNat * 16 +
              (sc ((px.g : Int) - (E1.prev.g : Int)) + 2).toNat * 4 +
              (sc ((px.b : Int) - (E1.prev.b : Int)) + 2).toNat := by
          have := read_emitted hB houtN 0 (by simp)
          simpa [hp1] using this
        have hplt : D1.p < cl := by
          rw [hp1, hcl, houtN]
          simp only [List.length_append, List.length_cons, List.length_nil]
          omega
        have hlo : 64 ≤ 64 + (sc ((px.r : Int) - (E1.prev.r : Int)) + 2).toNat * 16 +
            (sc ((px.g : Int) - (E1.prev.g : Int)) + 2).toNat * 4 +
            (sc ((px.b : Int) - (E1.prev.b : Int)) + 2).toNat := by omega
        have hhi : 64 + (sc ((px.r : Int) - (E1.prev.r : Int)) + 2).toNat * 16 +
            (sc ((px.g : Int) - (E1.prev.g : Int)) + 2).toNat * 4 +
            (sc ((px.b : Int) - (E1.prev.b : Int)) + 2).toNat < 128 := by
          unfold sc at h1 h2 h3 h4 h5 h6 ⊢
          omega
        have hstep := decStep_diff B cl ch D1 _ hd1 hplt hb1 hlo hhi
        have hdec : diffPx D1.px
            (64 + (sc ((px.r : Int) - (E1.prev.r : Int)) + 2).toNat * 16 +
              (sc ((px.g : Int) - (E1.prev.g : Int)) + 2).toNat * 4 +
              (sc ((px.b : Int) - (E1.prev.b : Int)) + 2).toNat) = px := by
          rw [hpx1]
          exact diff_decode E1.prev px hpv hxv ha ⟨h1, h2, h3, h4, h5, h6⟩
        rw [hdec] at hstep
        refine ⟨?_, by rw [hE2]; exact hrun1, by rw [hE2], ?_, ?_, ?_⟩
        · have hplen : 14 + (encPixelStep pos pxEnd px E1).out.length = D1.p + 1 := by
            rw [hE2]
            simp only [List.length_append, List.length_cons, List.length_nil, hp1]
            omega
          rw [hplen, hstep]
        · rw [hE2]
          exact idxRel_set_both hidx1 _ px hel hdl (hash_lt px)
        · rw [hE2]
          unfold PrevCached
          left
          simp only
          exact getD_set_self _ _ _ (by rw [hel]; exact hash_lt px)
        · rw [hE2]
          simp [hel]
      · by_cases hluma : -9 < sc (sc ((px.r : Int) - (E1.prev.r : Int)) -
              sc ((px.g : Int) - (E1.prev.g : Int))) ∧
            sc (sc ((px.r : Int) - (E1.prev.r : Int)) -
              sc ((px.g : Int) - (E1.prev.g : Int))) < 8 ∧
            -33 < sc ((px.g : Int) - (E1.prev.g : Int)) ∧
            sc ((px.g : Int) - (E1.prev.g : Int)) < 32 ∧
            -9 < sc (sc ((px.b : Int) - (E1.prev.b : Int)) -
              sc ((px.g : Int) - (E1.prev.g : Int))) ∧
            sc (sc ((px.b : Int) - (E1.prev.b : Int)) -
              sc ((px.g : Int) - (E1.prev.g : Int))) < 8
        · -- LUMA chunk
          have hE2 : encPixelStep pos pxEnd px E1 =
              { E1 with index := E1.index.set (qoiColorHash px) px, prev := px,
                        out := E1.out ++
                          [128 + (sc ((px.g : Int) - (E1.prev.g : Int)) + 32).toNat,
                           (sc (sc ((px.r : Int) - (E1.prev.r : Int)) -
                              sc ((px.g : Int) - (E1.prev.g : Int))) + 8).toNat * 16 +
                           (sc (sc ((px.b : Int) - (E1.prev.b : Int)) -
                              sc ((px.g : Int) - (E1.prev.g : Int))) + 8).toNat] } := by
            simp only [encPixelStep, if_neg hne, if_neg hs1, if_neg hhit, if_pos ha,
              if_neg hdiff, if_pos hluma]
          obtain ⟨post, hpost⟩ := hpre
          rw [hE2] at hpost
          have houtN : outN = E1.out ++
              ([128 + (sc ((px.g : Int) - (E1.prev.g : Int)) + 32).toNat,
                (sc (sc ((px.r : Int) - (E1.prev.r : Int)) -
                   sc ((px.g : Int) - (E1.prev.g : Int))) + 8).toNat * 16 +
                (sc (sc ((px.b : Int) - (E1.prev.b : Int)) -
                   sc ((px.g : Int) - (E1.prev.g : Int))) + 8).toNat] ++ post) := by
            rw [← hpost, List.append_assoc]
          obtain ⟨h1, h2, h3, h4, h5, h6⟩ := hluma
          have hb1 : B.getD D1.p 0 =
              128 + (sc ((px.g : Int) - (E1.prev.g : Int)) + 32).toNat := by
            have := read_emitted hB houtN 0 (by simp)
            simpa [hp1] using this
          have hb2 : B.getD (D1.p + 1) 0 =
              (sc (sc ((px.r : Int) - (E1.prev.r : Int)) -
                 sc ((px.g : Int) - (E1.prev.g : Int))) + 8).toNat * 16 +
              (sc (sc ((px.b : Int) - (E1.prev.b : Int)) -
                 sc ((px.g : Int) - (E1.prev.g : Int))) + 8).toNat := by
            have h := read_emitted hB houtN 1 (by simp)
            rw [show 14 + (E1.out.length + 1) = D1.p + 1 by omega] at h
            simpa using h
          have hplt : D1.p < cl := by
            rw [hp1, hcl, houtN]
            simp only [List.length_append, List.length_cons, List.length_nil]
            omega
          have hlo : 128 ≤ 128 + (sc ((px.g : Int) - (E1.prev.g : Int)) + 32).toNat := by
            omega
          have hhi : 128 + (sc ((px.g : Int) - (E1.prev.g : Int)) + 32).toNat < 192 := by
            omega
          have hstep := decStep_luma B cl ch D1 _ hd1 hplt hb1 hlo hhi
          rw [hb2] at hstep
          have hdec : lumaPx D1.px
              (128 + (sc ((px.g : Int) - (E1.prev.g : Int)) + 32).toNat)
              ((sc (sc ((px.r : Int) - (E1.prev.r : Int)) -
                  sc ((px.g : Int) - (E1.prev.g : Int))) + 8).toNat * 16 +
               (sc (sc ((px.b : Int) - (E1.prev.b : Int)) -
                  sc ((px.g : Int) - (E1.prev.g : Int))) + 8).toNat) = px := by
            rw [hpx1]
            exact luma_decode E1.prev px hpv hxv ha ⟨h1, h2, h3, h4, h5, h6⟩
          rw [hdec] at hstep
          refine ⟨?_, by rw [hE2]; exact hrun1, by rw [hE2], ?_, ?_, ?_⟩
          · have hplen : 14 + (encPixelStep pos pxEnd px E1).out.length = D1.p + 2 := by
              rw [hE2]
              simp only [List.length_append, List.length_cons, List.length_nil, hp1]
              omega
            rw [hplen, hstep]
          · rw [hE2]
            exact idxRel_set_both hidx1 _ px hel hdl (hash_lt px)
          · rw [hE2]
            unfold PrevCached
            left
            simp only
            exact getD_set_self _ _ _ (by rw [hel]; exact hash_lt px)
          · rw [hE2]
            simp [hel]
        · -- RGB chunk
          have hE2 : encPixelStep pos pxEnd px E1 =
              { E1 with index := E1.index.set (qoiColorHash px) px, prev := px,
                        out := E1.out ++ [254, px.r, px.g, px.b] } := by
            simp only [encPixelStep, if_neg hne, if_neg hs1, if_neg hhit, if_pos ha,
              if_neg hdiff, if_neg hluma]
          obtain ⟨post, hpost⟩ := hpre
          rw [hE2] at hpost
          have houtN : outN = E1.out ++ ([254, px.r, px.g, px.b] ++ post) := by
            rw [← hpost, List.append_assoc]
          have hb1 : B.getD D1.p 0 = 254 := by
            have := read_emitted hB houtN 0 (by simp)
            simpa [hp1] using this
          have hb2 : B.getD (D1.p + 1) 0 = px.r := by
            have h := read_emitted hB houtN 1 (by simp)
            rw [show 14 + (E1.out.length + 1) = D1.p + 1 by omega] at h
            simpa using h
          have hb3 : B.getD (D1.p + 2) 0 = px.g := by
            have h := read_emitted hB houtN 2 (by simp)
            rw [show 14 + (E1.out.length + 2) = D1.p + 2 by omega] at h
            simpa using h
          have hb4 : B.getD (D1.p + 3) 0 = px.b := by
            have h := read_emitted hB houtN 3 (by simp)
            rw [show 14 + (E1.out.length + 3) = D1.p + 3 by omega] at h
            simpa using h
          have hplt : D1.p < cl := by
            rw [hp1, hcl, houtN]
            simp only [List.length_append, List.length_cons, List.length_nil]
            omega
          have hstep := decStep_rgb B cl ch D1 hd1 hplt hb1
          simp only [hb2, hb3, hb4] at hstep
          have hpxeq : ({ r := px.r, g := px.g, b := px.b, a := D1.px.a } : Px) = px := by
            rw [hpx1, ← ha]
          rw [hpxeq] at hstep
          refine ⟨?_, by rw [hE2]; exact hrun1, by rw [hE2], ?_, ?_, ?_⟩
          · have hplen : 14 + (encPixelStep pos pxEnd px E1).out.length = D1.p + 4 := by
              rw [hE2]
              simp only [List.length_append, List.length_cons, List.length_nil, hp1]
              omega
            rw [hplen, hstep]
          · rw [hE2]
            exact idxRel_set_both hidx1 _ px hel hdl (hash_lt px)
          · rw [hE2]
            unfold PrevCached
            left
            simp only
            exact getD_set_self _ _ _ (by rw [hel]; exact hash_lt px)
          · rw [hE2]
            simp [hel]
    · -- RGBA chunk
      have hE2 : encPixelStep pos pxEnd px E1 =
          { E1 with index := E1.index.set (qoiColorHash px) px, prev := px,
                    out := E1.out ++ [255, px.r, px.g, px.b, px.a] } := by
        simp only [encPixelStep, if_neg hne, if_neg hs1, if_neg hhit, if_neg ha]
      obtain ⟨post, hpost⟩ := hpre
      rw [hE2] at hpost
      have houtN : outN = E1.out ++ ([255, px.r, px.g, px.b, px.a] ++ post) := by
        rw [← hpost, List.append_assoc]
      have hb1 : B.getD D1.p 0 = 255 := by
        have := read_emitted hB houtN 0 (by simp)
        simpa [hp1] using this
      have hb2 : B.getD (D1.p + 1) 0 = px.r := by
        have h := read_emitted hB houtN 1 (by simp)
        rw [show 14 + (E1.out.length + 1) = D1.p + 1 by omega] at h
        simpa using h
      have hb3 : B.getD (D1.p + 2) 0 = px.g := by
        have h := read_emitted hB houtN 2 (by simp)
        rw [show 14 + (E1.out.length + 2) = D1.p + 2 by omega] at h
        simpa using h
      have hb4 : B.getD (D1.p + 3) 0 = px.b := by
        have h := read_emitted hB houtN 3 (by simp)
        rw [show 14 + (E1.out.length + 3) = D1.p + 3 by omega] at h
        simpa using h
      have hb5 : B.getD (D1.p + 4) 0 = px.a := by
        have h := read_emitted hB houtN 4 (by simp)
        rw [show 14 + (E1.out.length + 4) = D1.p + 4 by omega] at h
        simpa using h
      have hplt : D1.p < cl := by
        rw [hp1, hcl, houtN]
        simp only [List.length_append, List.length_cons, List.length_nil]
        omega
      have hstep := decStep_rgba B cl ch D1 hd1 hplt hb1
      simp only [hb2, hb3, hb4, hb5] at hstep
      have hpxeq : ({ r := px.r, g := px.g, b := px.b, a := px.a } : Px) = px := rfl
      rw [hpxeq] at hstep
      refine ⟨?_, by rw [hE2]; exact hrun1, by rw [hE2], ?_, ?_, ?_⟩
      · have hplen : 14 + (encPixelStep pos pxEnd px E1).out.length = D1.p + 5 := by
          rw [hE2]
          simp only [List.length_append, List.length_cons, List.length_nil, hp1]
          omega
        rw [hplen, hstep]
      · rw [hE2]
        exact idxRel_set_both hidx1 _ px hel hdl (hash_lt px)
      · rw [hE2]
        unfold PrevCached
        left
        simp only
        exact getD_set_self _ _ _ (by rw [hel]; exact hash_lt px)
      · rw [hE2]
        simp [hel]

theorem encPixelStep_out_ext (pos pxEnd : Nat) (px : Px) (s : EncSt) :
    s.out <+: (encPixelStep pos pxEnd px s).out := by
  simp only [encPixelStep]
  split_ifs <;> simp [List.prefix_append]

/-- The run-flush factorisation: a pixel that breaks a pending run is
encoded exactly as by the flushed state. -/
theorem encPixelStep_flush (pos pxEnd : Nat) (px : Px) (s : EncSt)
    (hne : ¬ px = s.prev) (hr : 0 < s.run) :
    encPixelStep pos pxEnd px s =
      encPixelStep pos pxEnd px
        { s with run := 0, out := s.out ++ [192 + (s.run - 1)] } := by
  simp only [encPixelStep, if_neg hne, if_pos hr, lt_self_iff_false, if_false]

/-- Consuming a RUN chunk of stored value `q` and replaying it: `q + 1`
pixels come out. -/
theorem runChunk_sim (B : List Nat) (cl ch q : Nat) (D : DecSt)
    (hd : D.run = 0) (hplt : D.p < cl) (hb : B.getD D.p 0 = 192 + q) (hq : q < 62) :
    decLoop B cl ch (q + 1) D =
      { D with p := D.p + 1,
               index := D.index.set (qoiColorHash D.px) D.px,
               out := D.out ++ (List.replicate (q + 1) (writePx ch D.px)).flatten } := by
  show decLoop B cl ch q (decPixelStep B cl ch D) = _
  rw [decStep_runChunk B cl ch D (192 + q) hd hplt hb (by omega) (by omega)]
  rw [decLoop_run B cl ch q _ (by simp; omega)]
  have hmod : (192 + q) % 64 = q := by omega
  simp [hmod, hd, List.replicate_succ]

theorem flatten_range_succ {α : Type} (f : Nat → List α) (n : Nat) :
    ((List.range (n + 1)).map f).flatten = ((List.range n).map f).flatten ++ f n := by
  rw [List.range_succ, List.map_append, List.flatten_append]
  simp

/-- The encoder/decoder simulation: the invariant holds after every
pixel prefix, for any byte stream `B` that agrees with the encoder's
header-plus-chunk output below the chunk limit. -/
theorem sim_master (data : List Nat) (ch pxEnd N : Nat) (B : List Nat)
    (hdata : ∀ b ∈ data, b < 256)
    (hB : ∀ i, i < (encSt data ch pxEnd N).out.length →
      B.getD (14 + i) 0 = (encSt data ch pxEnd N).out.getD i 0) :
    ∀ k, k ≤ N → SimInv data ch pxEnd B (14 + (encSt data ch pxEnd N).out.length) k := by
  intro k
  induction k with
  | zero =>
    intro _
    refine ⟨rfl, rfl, rfl, rfl, ?_, ?_, ?_, ?_, rfl⟩
    · intro j h1 h2; omega
    · intro h; rfl
    · intro j hj; left; rfl
    · right
      exact ⟨rfl, by show encInit.index.getD 53 zeroPx = zeroPx; decide⟩
  | succ k ih =>
    intro hk1
    obtain ⟨sp, srun, sout, spx, spend, spend2, sidx, spc, sdl⟩ := ih (by omega)
    have hrle : (encSt data ch pxEnd k).run ≤ k := (encSt_run_le data ch pxEnd k).1
    have hrlt : (encSt data ch pxEnd k).run < 62 := (encSt_run_le data ch pxEnd k).2
    have hstep : encSt data ch pxEnd (k + 1) =
        encPixelStep (k * ch) pxEnd (pxA data ch pxEnd k) (encSt data ch pxEnd k) := rfl
    have hel : (encSt data ch pxEnd k).index.length = 64 := encSt_index_length data ch pxEnd k
    have hxv : pxValid (pxA data ch pxEnd k) := pxA_valid hdata ch pxEnd k
    have hpv : pxValid (encSt data ch pxEnd k).prev := prevA_valid hdata ch pxEnd k
    have hDpx : (decLoop B (14 + (encSt data ch pxEnd N).out.length) ch
        (k - (encSt data ch pxEnd k).run) decInit).px = (encSt data ch pxEnd k).prev := by
      rcases Nat.eq_zero_or_pos (encSt data ch pxEnd k).run with h0 | hpos
      · rw [spx, h0, Nat.sub_zero]
      · rw [spx]
        exact spend2 hpos
    by_cases heq : pxA data ch pxEnd k = (encSt data ch pxEnd k).prev
    · by_cases hflush : (encSt data ch pxEnd k).run + 1 = 62 ∨ k * ch = pxEnd
      · -- run flushed inside the run branch
        have hE' : encSt data ch pxEnd (k + 1) =
            { encSt data ch pxEnd k with
                run := 0, prev := pxA data ch pxEnd k,
                out := (encSt data ch pxEnd k).out ++ [192 + (encSt data ch pxEnd k).run] } := by
          rw [hstep]
          simp only [encPixelStep, if_pos heq, if_pos hflush, Nat.add_sub_cancel]
        have hrun' : (encSt data ch pxEnd (k + 1)).run = 0 := by rw [hE']
        have hout' : (encSt data ch pxEnd (k + 1)).out =
            (encSt data ch pxEnd k).out ++ [192 + (encSt data ch pxEnd k).run] := by rw [hE']
        have hprev' : (encSt data ch pxEnd (k + 1)).prev = pxA data ch pxEnd k := by rw [hE']
        have hindex' : (encSt data ch pxEnd (k + 1)).index =
            (encSt data ch pxEnd k).index := by rw [hE']
        obtain ⟨post, hpost⟩ := encSt_out_ext data ch pxEnd hk1
        rw [hout'] at hpost
        have houtN : (encSt data ch pxEnd N).out =
            (encSt data ch pxEnd k).out ++
              ([192 + (encSt data ch pxEnd k).run] ++ post) := by
          rw [← hpost, List.append_assoc]
        have hplt : (decLoop B (14 + (encSt data ch pxEnd N).out.length) ch
            (k - (encSt data ch pxEnd k).run) decInit).p <
              14 + (encSt data ch pxEnd N).out.length := by
          rw [sp, houtN]
          simp only [List.length_append, List.length_cons, List.length_nil]
          omega
        have hb1 : B.getD (decLoop B (14 + (encSt data ch pxEnd N).out.length) ch
            (k - (encSt data ch pxEnd k).run) decInit).p 0 =
              192 + (encSt data ch pxEnd k).run := by
          have h := read_emitted hB houtN 0 (by simp)
          rw [sp]
          simpa using h
        have hsplit : decLoop B (14 + (encSt data ch pxEnd N).out.length) ch
            (k + 1 - (encSt data ch pxEnd (k + 1)).run) decInit =
            decLoop B (14 + (encSt data ch pxEnd N).out.length) ch
              ((encSt data ch pxEnd k).run + 1)
              (decLoop B (14 + (encSt data ch pxEnd N).out.length) ch
                (k - (encSt data ch pxEnd k).run) decInit) := by
          rw [hrun', Nat.sub_zero, ← decLoop_add]
          congr 1
          omega
        have hrc := runChunk_sim B (14 + (encSt data ch pxEnd N).out.length) ch
          (encSt data ch pxEnd k).run
          (decLoop B (14 + (encSt data ch pxEnd N).out.length) ch
            (k - (encSt data ch pxEnd k).run) decInit) srun hplt hb1 hrlt
        refine ⟨?_, ?_, ?_, ?_, ?_, ?_, ?_, ?_, ?_⟩
        · rw [hsplit, hrc, hout']
          show _ + 1 = _
          rw [sp]
          simp only [List.length_append, List.length_cons, List.length_nil]
          omega
        · rw [hsplit, hrc]
          exact srun
        · rw [hsplit, hrc]
          show (decLoop B (14 + (encSt data ch pxEnd N).out.length) ch
              (k - (encSt data ch pxEnd k).run) decInit).out ++ _ = _
          rw [sout, hDpx, hrun', Nat.sub_zero,
            show k + 1 = (k - (encSt data ch pxEnd k).run) +
              ((encSt data ch pxEnd k).run + 1) by omega,
            flatten_range_const (fun j => writePx ch (pxA data ch pxEnd j))
              (writePx ch (encSt data ch pxEnd k).prev) _ _ ?_]
          intro j h1 h2
          show writePx ch (pxA data ch pxEnd j) = writePx ch (encSt data ch pxEnd k).prev
          rcases Nat.lt_or_ge j k with hjk | hjk
          · rw [spend j h1 hjk]
          · have hj : j = k := by omega
            subst hj
            rw [heq]
        · rw [hsplit, hrc, hrun', Nat.sub_zero]
          show (decLoop B (14 + (encSt data ch pxEnd N).out.length) ch
              (k - (encSt data ch pxEnd k).run) decInit).px = _
          rw [hDpx, hprev', heq]
        · intro j h1 h2
          rw [hrun'] at h1
          omega
        · intro h
          rw [hrun'] at h
          exact absurd h (lt_irrefl 0)
        · rw [hsplit, hrc, hindex']
          show IdxRel _ ((decLoop B (14 + (encSt data ch pxEnd N).out.length) ch
              (k - (encSt data ch pxEnd k).run) decInit).index.set _ _)
          rw [hDpx]
          rcases spc with hl | ⟨hpi, h53⟩
          · exact idxRel_stamp_known sidx _ _ sdl (hash_lt _) hl
          · rw [hpi, hash_initPx]
            exact idxRel_stamp_init sidx sdl h53
        · unfold PrevCached at spc ⊢
          rw [hprev', hindex', heq]
          exact spc
        · rw [hsplit, hrc]
          show ((decLoop B (14 + (encSt data ch pxEnd N).out.length) ch
              (k - (encSt data ch pxEnd k).run) decInit).index.set _ _).length = 64
          rw [List.length_set]
          exact sdl
      · -- run continues
        have hE' : encSt data ch pxEnd (k + 1) =
            { encSt data ch pxEnd k with
                run := (encSt data ch pxEnd k).run + 1, prev := pxA data ch pxEnd k } := by
          rw [hstep]
          simp only [encPixelStep, if_pos heq, if_neg hflush]
        have hrun' : (encSt data ch pxEnd (k + 1)).run = (encSt data ch pxEnd k).run + 1 := by
          rw [hE']
        have hout' : (encSt data ch pxEnd (k + 1)).out = (encSt data ch pxEnd k).out := by
          rw [hE']
        have hprev' : (encSt data ch pxEnd (k + 1)).prev = pxA data ch pxEnd k := by
          rw [hE']
        have hindex' : (encSt data ch pxEnd (k + 1)).index = (encSt data ch pxEnd k).index := by
          rw [hE']
        have hdk : k + 1 - (encSt data ch pxEnd (k + 1)).run = k - (encSt data ch pxEnd k).run := by
          rw [hrun']; omega
        refine ⟨?_, ?_, ?_, ?_, ?_, ?_, ?_, ?_, ?_⟩
        · rw [hdk, hout']; exact sp
        · rw [hdk]; exact srun
        · rw [hdk]; exact sout
        · rw [hdk]; exact spx
        · intro j h1 h2
          rw [hrun'] at h1
          rw [hprev', heq]
          rcases Nat.lt_or_ge j k with hjk | hjk
          · exact spend j (by omega) hjk
          · have : j = k := by omega
            subst this
            exact heq
        · intro _
          rw [hdk, hprev', heq]
          rcases Nat.eq_zero_or_pos (encSt data ch pxEnd k).run with h0 | hpos
          · rw [h0, Nat.sub_zero]
          · exact spend2 hpos
        · rw [hdk, hindex']; exact sidx
        · unfold PrevCached
          rw [hprev', hindex', heq]
          exact spc
        · rw [hdk]; exact sdl
    · -- cache-miss chunk for this pixel
      rcases Nat.eq_zero_or_pos (encSt data ch pxEnd k).run with hr0 | hrpos
      · -- no pending run: a single chunk
        rw [hr0, Nat.sub_zero] at sp srun sout spx sidx sdl hDpx
        have hpre : (encPixelStep (k * ch) pxEnd (pxA data ch pxEnd k)
            (encSt data ch pxEnd k)).out <+: (encSt data ch pxEnd N).out := by
          rw [← hstep]
          exact encSt_out_ext data ch pxEnd hk1
        obtain ⟨hd2, hrun2, hprev2, hidx2, hpc2, hel2⟩ :=
          chunk_sim B (encSt data ch pxEnd N).out ch
            (14 + (encSt data ch pxEnd N).out.length) (k * ch) pxEnd
            (encSt data ch pxEnd k)
            (decLoop B (14 + (encSt data ch pxEnd N).out.length) ch k decInit)
            (pxA data ch pxEnd k) hr0 heq hxv hpv sp srun hDpx sidx sdl hel hB rfl hpre
        have hrun' : (encSt data ch pxEnd (k + 1)).run = 0 := by
          rw [hstep]; exact hrun2
        have hsplit : decLoop B (14 + (encSt data ch pxEnd N).out.length) ch
            (k + 1 - (encSt data ch pxEnd (k + 1)).run) decInit =
            decPixelStep B (14 + (encSt data ch pxEnd N).out.length) ch
              (decLoop B (14 + (encSt data ch pxEnd N).out.length) ch k decInit) := by
          rw [hrun', Nat.sub_zero, decLoop_add]
          rfl
        refine ⟨?_, ?_, ?_, ?_, ?_, ?_, ?_, ?_, ?_⟩
        · rw [hsplit, hd2, hstep]
        · rw [hsplit, hd2]
          exact srun
        · rw [hsplit, hd2, hrun', Nat.sub_zero]
          show (decLoop B (14 + (encSt data ch pxEnd N).out.length) ch k decInit).out ++ _ = _
          rw [sout, flatten_range_succ]
        · rw [hsplit, hd2, hrun', Nat.sub_zero]
          show pxA data ch pxEnd k = _
          rw [encSt_prev]
        · intro j h1 h2
          rw [hrun'] at h1
          omega
        · intro h
          rw [hrun'] at h
          exact absurd h (lt_irrefl 0)
        · rw [hsplit, hd2, hstep]
          exact hidx2
        · rw [hstep]
          exact hpc2
        · rw [hsplit, hd2]
          show ((decLoop B (14 + (encSt data ch pxEnd N).out.length) ch k
              decInit).index.set _ _).length = 64
          rw [List.length_set]
          exact sdl
      · -- pending run: flush chunk, then the pixel chunk
        have hfac : encSt data ch pxEnd (k + 1) =
            encPixelStep (k * ch) pxEnd (pxA data ch pxEnd k)
              { encSt data ch pxEnd k with
                  run := 0,
                  out := (encSt data ch pxEnd k).out ++
                    [192 + ((encSt data ch pxEnd k).run - 1)] } := by
          rw [hstep, encPixelStep_flush _ _ _ _ heq hrpos]
        have hpre : (encPixelStep (k * ch) pxEnd (pxA data ch pxEnd k)
            { encSt data ch pxEnd k with
                run := 0,
                out := (encSt data ch pxEnd k).out ++
                  [192 + ((encSt data ch pxEnd k).run - 1)] }).out <+:
            (encSt data ch pxEnd N).out := by
          rw [← hfac]
          exact encSt_out_ext data ch pxEnd hk1
        have hpre0 : ({ encSt data ch pxEnd k with
            run := 0,
            out := (encSt data ch pxEnd k).out ++
              [192 + ((encSt data ch pxEnd k).run - 1)] } : EncSt).out <+:
            (encSt data ch pxEnd N).out :=
          (encPixelStep_out_ext (k * ch) pxEnd (pxA data ch pxEnd k) _).trans hpre
        obtain ⟨rest, hrest⟩ := hpre0
        have houtN : (encSt data ch pxEnd N).out =
            (encSt data ch pxEnd k).out ++
              ([192 + ((encSt data ch pxEnd k).run - 1)] ++ rest) := by
          rw [← hrest]
          show ((encSt data ch pxEnd k).out ++
            [192 + ((encSt data ch pxEnd k).run - 1)]) ++ rest = _
          rw [List.append_assoc]
        have hplt : (decLoop B (14 + (encSt data ch pxEnd N).out.length) ch
            (k - (encSt data ch pxEnd k).run) decInit).p <
              14 + (encSt data ch pxEnd N).out.length := by
          rw [sp, houtN]
          simp only [List.length_append, List.length_cons, List.length_nil]
          omega
        have hb1 : B.getD (decLoop B (14 + (encSt data ch pxEnd N).out.length) ch
            (k - (encSt data ch pxEnd k).run) decInit).p 0 =
              192 + ((encSt data ch pxEnd k).run - 1) := by
          have h := read_emitted hB houtN 0 (by simp)
          rw [sp]
          simpa using h
        have hrc := runChunk_sim B (14 + (encSt data ch pxEnd N).out.length) ch
          ((encSt data ch pxEnd k).run - 1)
          (decLoop B (14 + (encSt data ch pxEnd N).out.length) ch
            (k - (encSt data ch pxEnd k).run) decInit) srun hplt hb1 (by omega)
        obtain ⟨hd2, hrun2, hprev2, hidx2, hpc2, hel2⟩ :=
          chunk_sim B (encSt data ch pxEnd N).out ch
            (14 + (encSt data ch pxEnd N).out.length) (k * ch) pxEnd
            { encSt data ch pxEnd k with
                run := 0,
                out := (encSt data ch pxEnd k).out ++
                  [192 + ((encSt data ch pxEnd k).run - 1)] }
            { decLoop B (14 + (encSt data ch pxEnd N).out.length) ch
                (k - (encSt data ch pxEnd k).run) decInit with
                p := (decLoop B (14 + (encSt data ch pxEnd N).out.length) ch
                  (k - (encSt data ch pxEnd k).run) decInit).p + 1,
                index := (decLoop B (14 + (encSt data ch pxEnd N).out.length) ch
                  (k - (encSt data ch pxEnd k).run) decInit).index.set
                  (qoiColorHash (decLoop B (14 + (encSt data ch pxEnd N).out.length) ch
                    (k - (encSt data ch pxEnd k).run) decInit).px)
                  (decLoop B (14 + (encSt data ch pxEnd N).out.length) ch
                    (k - (encSt data ch pxEnd k).run) decInit).px,
                out := (decLoop B (14 + (encSt data ch pxEnd N).out.length) ch
                  (k - (encSt data ch pxEnd k).run) decInit).out ++
                  (List.replicate ((encSt data ch pxEnd k).run - 1 + 1)
                    (writePx ch (decLoop B (14 + (encSt data ch pxEnd N).out.length) ch
                      (k - (encSt data ch pxEnd k).run) decInit).px)).flatten }
            (pxA data ch pxEnd k) rfl (by show ¬ _ = (encSt data ch pxEnd k).prev; exact heq)
            hxv hpv
            (by show _ + 1 = 14 + ((encSt data ch pxEnd k).out ++ _).length
                rw [sp]
                simp only [List.length_append, List.length_cons, List.length_nil]
                omega)
            srun
            (by show (decLoop B (14 + (encSt data ch pxEnd N).out.length) ch
                  (k - (encSt data ch pxEnd k).run) decInit).px =
                  (encSt data ch pxEnd k).prev
                exact hDpx)
            (by show IdxRel (encSt data ch pxEnd k).index _
                rw [hDpx]
                rcases spc with hl | ⟨hpi, h53⟩
                · exact idxRel_stamp_known sidx _ _ sdl (hash_lt _) hl
                · rw [hpi, hash_initPx]
                  exact idxRel_stamp_init sidx sdl h53)
            (by show ((decLoop B (14 + (encSt data ch pxEnd N).out.length) ch
                  (k - (encSt data ch pxEnd k).run) decInit).index.set _ _).length = 64
                rw [List.length_set]
                exact sdl)
            hel hB rfl hpre
        have hrun' : (encSt data ch pxEnd (k + 1)).run = 0 := by
          rw [hfac]; exact hrun2
        have hsplit : decLoop B (14 + (encSt data ch pxEnd N).out.length) ch
            (k + 1 - (encSt data ch pxEnd (k + 1)).run) decInit =
            decPixelStep B (14 + (encSt data ch pxEnd N).out.length) ch
              (decLoop B (14 + (encSt data ch pxEnd N).out.length) ch
                ((encSt data ch pxEnd k).run - 1 + 1)
                (decLoop B (14 + (encSt data ch pxEnd N).out.length) ch
                  (k - (encSt data ch pxEnd k).run) decInit)) := by
          rw [hrun', Nat.sub_zero,
            show k + 1 = ((k - (encSt data ch pxEnd k).run) +
              ((encSt data ch pxEnd k).run - 1 + 1)) + 1 from by omega,
            decLoop_add, decLoop_add]
          rfl
        have hflat : ((List.range k).map fun j => writePx ch (pxA data ch pxEnd j)).flatten =
            ((List.range (k - (encSt data ch pxEnd k).run)).map
              fun j => writePx ch (pxA data ch pxEnd j)).flatten ++
            (List.replicate ((encSt data ch pxEnd k).run - 1 + 1)
              (writePx ch (encSt data ch pxEnd k).prev)).flatten := by
          have h2 := flatten_range_const (fun j => writePx ch (pxA data ch pxEnd j))
            (writePx ch (encSt data ch pxEnd k).prev)
            (k - (encSt data ch pxEnd k).run) ((encSt data ch pxEnd k).run - 1 + 1) ?_
          · rw [show (k - (encSt data ch pxEnd k).run) +
              ((encSt data ch pxEnd k).run - 1 + 1) = k from by omega] at h2
            exact h2
          · intro j h1 h2
            show writePx ch (pxA data ch pxEnd j) = _
            rw [spend j h1 (by omega)]
        refine ⟨?_, ?_, ?_, ?_, ?_, ?_, ?_, ?_, ?_⟩
        · rw [hsplit, hrc, hd2, hfac]
        · rw [hsplit, hrc, hd2]
          exact srun
        · rw [hsplit, hrc, hd2, hrun', Nat.sub_zero]
          show ((decLoop B (14 + (encSt data ch pxEnd N).out.length) ch
              (k - (encSt data ch pxEnd k).run) decInit).out ++ _) ++ _ = _
          rw [sout, hDpx, flatten_range_succ, hflat, List.append_assoc]
        · rw [hsplit, hrc, hd2, hrun', Nat.sub_zero]
          show pxA data ch pxEnd k = _
          rw [encSt_prev]
        · intro j h1 h2
          rw [hrun'] at h1
          omega
        · intro h
          rw [hrun'] at h
          exact absurd h (lt_irrefl 0)
        · rw [hsplit, hrc, hd2, hfac]
          exact hidx2
        · rw [hfac]
          exact hpc2
        · rw [hsplit, hrc, hd2]
          simp only [List.length_set]
          exact sdl

/-- The final pixel always flushes the pending run. -/
theorem encSt_run_final (data : List Nat) (ch N : Nat) (hN : 0 < N) :
    (encSt data ch (N * ch - ch) N).run = 0 := by
  obtain ⟨m, rfl⟩ : ∃ m, N = m + 1 := ⟨N - 1, by omega⟩
  have hpos : m * ch = (m + 1) * ch - ch := by
    have : (m + 1) * ch = m * ch + ch := by ring
    omega
  show (encPixelStep (m * ch) ((m + 1) * ch - ch) _ _).run = 0
  simp only [encPixelStep]
  split_ifs with h1 h2 h3 h4 h5 h6 h7 <;> first
    | rfl
    | (exact absurd (Or.inr hpos) h2)
    | simp_all
    | omega

theorem take_succ_getD (l : List Nat) (m : Nat) (hm : m < l.length) :
    l.take (m + 1) = l.take m ++ [l.getD m 0] := by
  rw [List.take_succ, List.getD_eq_getElem l 0 hm]
  simp [List.getElem?_eq_getElem hm]

/-- The decoder's replayed pixel bytes are exactly the input buffer. -/
theorem out_spec_data (data : List Nat) (ch pxEnd N : Nat)
    (hch : ch = 3 ∨ ch = 4) (hlen : data.length = N * ch) :
    ∀ k, k ≤ N →
      ((List.range k).map fun j => writePx ch (pxA data ch pxEnd j)).flatten =
        data.take (k * ch) := by
  intro k
  induction k with
  | zero => simp
  | succ m ih =>
    intro hm
    rw [flatten_range_succ, ih (by omega)]
    have hb : m * ch + ch ≤ data.length := by
      rw [hlen]
      have h1 : (m + 1) * ch ≤ N * ch := Nat.mul_le_mul_right ch hm
      have h2 : (m + 1) * ch = m * ch + ch := by ring
      omega
    have hsucc : (m + 1) * ch = m * ch + ch := by ring
    rcases hch with h3 | h4
    · subst h3
      rw [hsucc,
        show m * 3 + 3 = ((m * 3 + 1) + 1) + 1 from by omega,
        take_succ_getD data _ (by omega),
        take_succ_getD data _ (by omega),
        take_succ_getD data _ (by omega)]
      show _ ++ writePx 3 (readPx data 3 (m * 3) _) = _
      simp [writePx, readPx, List.append_assoc]
    · subst h4
      rw [hsucc,
        show m * 4 + 4 = (((m * 4 + 1) + 1) + 1) + 1 from by omega,
        take_succ_getD data _ (by omega),
        take_succ_getD data _ (by omega),
        take_succ_getD data _ (by omega),
        take_succ_getD data _ (by omega)]
      show _ ++ writePx 4 (readPx data 4 (m * 4) _) = _
      simp [writePx, readPx, List.append_assoc]

theorem qoiHeader_len (desc : QoiDesc) : (qoiHeader desc).length = 14 := by
  simp [qoiHeader, qoiWrite32]

theorem getD_append_left' (l r : List Nat) (i : Nat) (h : i < l.length) :
    (l ++ r).getD i 0 = l.getD i 0 := by
  simp [List.getD_eq_getElem?_getD, List.getElem?_append_left h]

theorem getD_append_right' (l r : List Nat) (i : Nat) :
    (l ++ r).getD (l.length + i) 0 = r.getD i 0 := by
  simp [List.getD_eq_getElem?_getD, List.getElem?_append_right (by omega : l.length ≤ l.length + i)]

/-- Decoding any byte stream that carries the encoder's header and chunk
bytes (whatever its final 8 bytes are) recovers the pixels and the
descriptor. -/
theorem decode_of_encode (data : List Nat) (desc : QoiDesc) (B : List Nat)
    (hdata : ∀ b ∈ data, b < 256)
    (hlen : data.length = desc.width * desc.height * desc.channels)
    (hbad : ¬ encBadDesc desc)
    (hS : ∀ i, i < 14 + (encSt data desc.channels
        (desc.width * desc.height * desc.channels - desc.channels)
        (desc.width * desc.height)).out.length →
      B.getD i 0 = (qoiHeader desc ++ (encSt data desc.channels
        (desc.width * desc.height * desc.channels - desc.channels)
        (desc.width * desc.height)).out).getD i 0)
    (hBlen : B.length = 14 + (encSt data desc.channels
        (desc.width * desc.height * desc.channels - desc.channels)
        (desc.width * desc.height)).out.length + 8) :
    qoi_decode B desc.channels = some (desc, data) := by
  obtain ⟨hw0, hh0, hch3, hch4, hcs1, hpix⟩ :
      ¬ desc.width = 0 ∧ ¬ desc.height = 0 ∧ ¬ desc.channels < 3 ∧
      ¬ 4 < desc.channels ∧ ¬ 1 < desc.colorspace ∧
      ¬ QOI_PIXELS_MAX / desc.width ≤ desc.height := by
    unfold encBadDesc at hbad
    push_neg at hbad
    exact ⟨by omega, by omega, by omega, by omega, by omega, by omega⟩
  have hdivle : QOI_PIXELS_MAX / desc.width ≤ QOI_PIXELS_MAX := Nat.div_le_self _ _
  have hw32 : desc.width < 2 ^ 32 := by
    rcases Nat.lt_or_ge QOI_PIXELS_MAX desc.width with hgt | hle
    · rw [Nat.div_eq_of_lt hgt] at hpix
      exact absurd (Nat.zero_le _) hpix
    · unfold QOI_PIXELS_MAX at hle
      omega
  have hh32 : desc.height < 2 ^ 32 := by
    unfold QOI_PIXELS_MAX at hdivle hpix
    omega
  have hhd : ∀ i, i < 14 → B.getD i 0 = (qoiHeader desc).getD i 0 := by
    intro i hi
    rw [hS i (by omega)]
    exact getD_append_left' _ _ i (by rw [qoiHeader_len]; omega)
  have hr0 : qoiRead32 B 0 = QOI_MAGIC := by
    unfold qoiRead32
    rw [hhd 0 (by omega), hhd 1 (by omega), hhd 2 (by omega), hhd 3 (by omega)]
    have g0 : (qoiHeader desc).getD 0 0 = 113 := rfl
    have g1 : (qoiHeader desc).getD 1 0 = 111 := rfl
    have g2 : (qoiHeader desc).getD 2 0 = 105 := rfl
    have g3 : (qoiHeader desc).getD 3 0 = 102 := rfl
    rw [g0, g1, g2, g3]
    norm_num [QOI_MAGIC]
  have hr4 : qoiRead32 B 4 = desc.width := by
    unfold qoiRead32
    rw [hhd 4 (by omega), hhd 5 (by omega), hhd 6 (by omega), hhd 7 (by omega)]
    simp only [qoiHeader, qoiWrite32, QOI_MAGIC, List.cons_append, List.nil_append,
      List.getD_cons_succ, List.getD_cons_zero]
    omega
  have hr8 : qoiRead32 B 8 = desc.height := by
    unfold qoiRead32
    rw [hhd 8 (by omega), hhd 9 (by omega), hhd 10 (by omega), hhd 11 (by omega)]
    simp only [qoiHeader, qoiWrite32, QOI_MAGIC, List.cons_append, List.nil_append,
      List.getD_cons_succ, List.getD_cons_zero]
    omega
  have hr12 : B.getD 12 0 = desc.channels := by
    rw [hhd 12 (by omega)]
    simp [qoiHeader, qoiWrite32]
  have hr13 : B.getD 13 0 = desc.colorspace := by
    rw [hhd 13 (by omega)]
    simp [qoiHeader, qoiWrite32]
  have hchok : ¬ ¬ (desc.channels = 0 ∨ desc.channels = 3 ∨ desc.channels = 4) := by
    omega
  have hlenok : ¬ B.length < 22 := by
    rw [hBlen]; omega
  have hhdr : ¬ decBadHeader B := by
    unfold decBadHeader
    push_neg
    rw [hr0, hr4, hr8, hr12, hr13]
    exact ⟨by omega, by omega, by omega, by omega, by omega, rfl, by omega⟩
  rw [qoi_decode, if_neg hchok, if_neg (by omega : ¬ B.length < 22), if_neg hhdr]
  simp only [hr0, hr4, hr8, hr12, hr13]
  rw [if_neg (by omega : ¬ desc.channels = 0)]
  have hN1 : 1 ≤ desc.width * desc.height := by
    have := Nat.mul_pos (by omega : 0 < desc.width) (by omega : 0 < desc.height)
    omega
  have hrunN := encSt_run_final data desc.channels (desc.width * desc.height) hN1
  have hmul : desc.width * desc.height * desc.channels =
      desc.width * desc.height * desc.channels := rfl
  have hBsim : ∀ i, i < (encSt data desc.channels
      (desc.width * desc.height * desc.channels - desc.channels)
      (desc.width * desc.height)).out.length →
      B.getD (14 + i) 0 = (encSt data desc.channels
        (desc.width * desc.height * desc.channels - desc.channels)
        (desc.width * desc.height)).out.getD i 0 := by
    intro i hi
    rw [hS (14 + i) (by omega)]
    have h14 : (qoiHeader desc).length = 14 := qoiHeader_len desc
    rw [← h14]
    exact getD_append_right' _ _ i
  have hsim := sim_master data desc.channels
    (desc.width * desc.height * desc.channels - desc.channels)
    (desc.width * desc.height) B hdata hBsim (desc.width * desc.height) (le_refl _)
  obtain ⟨sp, srun, sout, spx, spend, spend2, sidx, spc, sdl⟩ := hsim
  rw [hrunN, Nat.sub_zero] at sout
  have hcls : B.length - 8 = 14 + (encSt data desc.channels
      (desc.width * desc.height * desc.channels - desc.channels)
      (desc.width * desc.height)).out.length := by
    rw [hBlen]
    omega
  rw [hcls, sout]
  rw [out_spec_data data desc.channels
    (desc.width * desc.height * desc.channels - desc.channels)
    (desc.width * desc.height) (by omega) (by rw [hlen, Nat.mul_assoc])
    (desc.width * desc.height) (le_refl _)]
  rw [show desc.width * desc.height * desc.channels = data.length from by
    rw [hlen, Nat.mul_assoc], List.take_length]

theorem encLoop_encSt0 (data : List Nat) (ch pxEnd n : Nat) :
    encLoop data ch pxEnd n 0 encInit = encSt data ch pxEnd n := by
  have h := encLoop_encSt data ch pxEnd n 0
  simpa using h

/-- C1: decoding the encoder's output, requesting the same channel
count, returns the original pixel buffer and the descriptor's fields. -/
theorem c1_roundtrip (data : List Nat) (desc : QoiDesc)
    (hdata : ∀ b ∈ data, b < 256)
    (hlen : data.length = desc.width * desc.height * desc.channels)
    (hbad : ¬ encBadDesc desc) :
    (qoi_encode data desc).bind (fun S => qoi_decode S desc.channels) =
      some (desc, data) := by
  rw [qoi_encode, if_neg hbad]
  simp only [Option.some_bind]
  rw [encLoop_encSt0]
  apply decode_of_encode data desc _ hdata hlen hbad
  · intro i hi
    apply getD_append_left'
    simp only [List.length_append, qoiHeader_len]
    omega
  · simp only [List.length_append, qoiHeader_len, qoi_padding]
    simp

/-- C9: the base decoder never inspects the final 8 terminator bytes:
replacing them by any 8 bytes gives the same non-null result. -/
theorem c9_terminator_ignored (data : List Nat) (desc : QoiDesc)
    (hdata : ∀ b ∈ data, b < 256)
    (hlen : data.length = desc.width * desc.height * desc.channels)
    (hbad : ¬ encBadDesc desc)
    (S : List Nat) (hS : qoi_encode data desc = some S)
    (t : List Nat) (ht : t.length = 8) :
    qoi_decode (S.take (S.length - 8) ++ t) desc.channels =
        qoi_decode S desc.channels ∧
      qoi_decode S desc.channels ≠ none := by
  simp only [qoi_encode, if_neg hbad] at hS
  have hSval := Option.some.inj hS.symm
  rw [encLoop_encSt0] at hSval
  have htake : S.take (S.length - 8) =
      qoiHeader desc ++ (encSt data desc.channels
        (desc.width * desc.height * desc.channels - desc.channels)
        (desc.width * desc.height)).out := by
    subst hSval
    have hl : ((qoiHeader desc ++ (encSt data desc.channels
        (desc.width * desc.height * desc.channels - desc.channels)
        (desc.width * desc.height)).out) ++ qoi_padding).length - 8 =
        (qoiHeader desc ++ (encSt data desc.channels
          (desc.width * desc.height * desc.channels - desc.channels)
          (desc.width * desc.height)).out).length := by
      simp only [List.length_append, qoiHeader_len, qoi_padding, List.length_cons,
        List.length_nil]
      try omega
    rw [hl, List.take_left]
  have hdec1 : qoi_decode (S.take (S.length - 8) ++ t) desc.channels =
      some (desc, data) := by
    apply decode_of_encode data desc _ hdata hlen hbad
    · intro i hi
      rw [htake]
      apply getD_append_left'
      simp only [List.length_append, qoiHeader_len]
      omega
    · rw [List.length_append, htake, ht]
      simp only [List.length_append, qoiHeader_len]
      try omega
  have hdec2 : qoi_decode S desc.channels = some (desc, data) := by
    apply decode_of_encode data desc _ hdata hlen hbad
    · intro i hi
      subst hSval
      apply getD_append_left'
      simp only [List.length_append, qoiHeader_len]
      omega
    · subst hSval
      simp only [List.length_append, qoiHeader_len, qoi_padding, List.length_cons,
        List.length_nil]
      try omega
  rw [hdec1, hdec2]
  exact ⟨rfl, by simp⟩

/-- C3 counterexample: the 2×1 all-black image.  The encoder's run path
never touches its cache, while the decoder stamps slot 53 (the hash of
the initial pixel) with the initial pixel when it consumes the leading
RUN chunk — after both have handled the full 2-pixel prefix, the caches
differ at slot 53. -/
theorem c3_counterexample :
    qoi_encode [0, 0, 0, 255, 0, 0, 0, 255] ⟨2, 1, 4, 0⟩ = some blackBase ∧
    (encLoop [0, 0, 0, 255, 0, 0, 0, 255] 4 4 2 0 encInit).index.getD 53 zeroPx = zeroPx ∧
    (decLoop blackBase (blackBase.length - 8) 4 2 decInit).index.getD 53 zeroPx = initPx ∧
    zeroPx ≠ initPx ∧
    (decLoop blackBase (blackBase.length - 8) 4 2 decInit).p =
      14 + (encLoop [0, 0, 0, 255, 0, 0, 0, 255] 4 4 2 0 encInit).out.length ∧
    (decLoop blackBase (blackBase.length - 8) 4 2 decInit).run = 0 := by
  refine ⟨by decide, by decide, by decide, by decide, by decide, by decide⟩

/-- C3 amended: after the encoder has processed any `k`-pixel prefix
and the decoder has consumed the chunks emitted for that prefix (it is
`run` pixels behind while a run is pending), the two 64-entry caches
agree on every slot except possibly slot 53 = hash(0,0,0,255), where
the decoder may hold the initial pixel (stamped from a RUN chunk for a
leading run) while the encoder still holds the zero entry. -/
theorem c3_amended (data : List Nat) (desc : QoiDesc) (S : List Nat)
    (hdata : ∀ b ∈ data, b < 256)
    (hbad : ¬ encBadDesc desc)
    (hS : qoi_encode data desc = some S)
    (k : Nat) (hk : k ≤ desc.width * desc.height) (j : Nat) (hj : j < 64) :
    (decLoop S (S.length - 8) desc.channels
        (k - (encSt data desc.channels
          (desc.width * desc.height * desc.channels - desc.channels) k).run)
        decInit).index.getD j zeroPx =
      (encSt data desc.channels
        (desc.width * desc.height * desc.channels - desc.channels) k).index.getD j zeroPx ∨
    (j = 53 ∧
      (decLoop S (S.length - 8) desc.channels
        (k - (encSt data desc.channels
          (desc.width * desc.height * desc.channels - desc.channels) k).run)
        decInit).index.getD 53 zeroPx = initPx ∧
      (encSt data desc.channels
        (desc.width * desc.height * desc.channels - desc.channels) k).index.getD 53 zeroPx =
        zeroPx) := by
  simp only [qoi_encode, if_neg hbad] at hS
  have hSval : S = qoiHeader desc ++ (encSt data desc.channels
      (desc.width * desc.height * desc.channels - desc.channels)
      (desc.width * desc.height)).out ++ qoi_padding := by
    rw [← encLoop_encSt0]
    exact (Option.some.inj hS).symm
  have hcls : S.length - 8 = 14 + (encSt data desc.channels
      (desc.width * desc.height * desc.channels - desc.channels)
      (desc.width * desc.height)).out.length := by
    rw [hSval]
    simp only [List.length_append, qoiHeader_len, qoi_padding, List.length_cons,
      List.length_nil]
    try omega
  have hB : ∀ i, i < (encSt data desc.channels
      (desc.width * desc.height * desc.channels - desc.channels)
      (desc.width * desc.height)).out.length →
      S.getD (14 + i) 0 = (encSt data desc.channels
        (desc.width * desc.height * desc.channels - desc.channels)
        (desc.width * desc.height)).out.getD i 0 := by
    intro i hi
    rw [hSval]
    have h1 : (qoiHeader desc ++ (encSt data desc.channels
        (desc.width * desc.height * desc.channels - desc.channels)
        (desc.width * desc.height)).out ++ qoi_padding).getD (14 + i) 0 =
        (qoiHeader desc ++ (encSt data desc.channels
          (desc.width * desc.height * desc.channels - desc.channels)
          (desc.width * desc.height)).out).getD (14 + i) 0 :=
      getD_append_left' _ _ _ (by
        simp only [List.length_append, qoiHeader_len]
        omega)
    rw [h1, show (14 : Nat) + i = (qoiHeader desc).length + i from by rw [qoiHeader_len]]
    exact getD_append_right' _ _ i
  have hsim := sim_master data desc.channels
    (desc.width * desc.height * desc.channels - desc.channels)
    (desc.width * desc.height) S hdata hB k hk
  rw [hcls]
  exact hsim.hidx j hj

theorem decStep_out_length (B : List Nat) (cl ch : Nat) (s : DecSt) :
    (decPixelStep B cl ch s).out.length =
      s.out.length + (if ch = 4 then 4 else 3) := by
  simp only [decPixelStep, writePx]
  split_ifs <;> simp

theorem decLoop_out_length (B : List Nat) (cl ch : Nat) :
    ∀ n (s : DecSt), (decLoop B cl ch n s).out.length =
      s.out.length + n * (if ch = 4 then 4 else 3) := by
  intro n
  induction n with
  | zero =>
    intro s
    show s.out.length = s.out.length + 0 * (if ch = 4 then 4 else 3)
    simp
  | succ m ih =>
    intro s
    show (decLoop B cl ch m (decPixelStep B cl ch s)).out.length = _
    rw [ih, decStep_out_length]
    ring

/-- C4 amended: `qoi_decode` returns null exactly on a bad requested
channel count, an input shorter than 22 bytes, or a failed header check
— a truncated chunk region is not detected, and every successful decode
returns a fully sized `width*height*channels` buffer (missing chunks
leave the remaining pixels replaying the current pixel state). -/
theorem c4_amended (bytes : List Nat) (channels : Nat) :
    (qoi_decode bytes channels = none ↔
      ¬(channels = 0 ∨ channels = 3 ∨ channels = 4) ∨ bytes.length < 22 ∨
        decBadHeader bytes) ∧
    (∀ desc out, qoi_decode bytes channels = some (desc, out) →
      out.length = desc.width * desc.height *
        (if channels = 0 then desc.channels else channels)) := by
  constructor
  · unfold qoi_decode
    split_ifs with h1 h2 h3 <;> simp_all
  · intro desc out h
    unfold qoi_decode at h
    split_ifs at h with h1 h2 h3 h4
    · simp only [Option.some.injEq, Prod.mk.injEq] at h
      obtain ⟨hdesc, hout⟩ := h
      subst hdesc
      subst hout
      subst h4
      rw [decLoop_out_length]
      unfold decBadHeader at h3
      push_neg at h3
      obtain ⟨h_, h_, hc3, hc4, h_, h_, h_⟩ := h3
      have hch : bytes.getD 12 0 = 3 ∨ bytes.getD 12 0 = 4 := by omega
      rcases hch with h | h <;> rw [h] <;> simp [decInit]
    · simp only [Option.some.injEq, Prod.mk.injEq] at h
      obtain ⟨hdesc, hout⟩ := h
      subst hdesc
      subst hout
      rw [decLoop_out_length]
      have hch : channels = 3 ∨ channels = 4 := by
        rcases h1 with h | h | h <;> first | exact absurd h h4 | exact Or.inl h | exact Or.inr h
      rcases hch with h | h <;> subst h <;> simp [decInit]
theorem encSt_out_bound (data : List Nat) (ch pxEnd : Nat) (hch : ch = 3 ∨ ch = 4) :
    ∀ k, (encSt data ch pxEnd k).out.length + min (encSt data ch pxEnd k).run 1 ≤
      k * (ch + 1) := by
  intro k
  induction k with
  | zero => simp [encSt, encInit]
  | succ m ih =>
    have hstep : encSt data ch pxEnd (m + 1) =
        encPixelStep (m * ch) pxEnd
          (readPx data ch (m * ch) (encSt data ch pxEnd m).prev)
          (encSt data ch pxEnd m) := rfl
    rw [hstep]
    set s := encSt data ch pxEnd m with hs
    set px := readPx data ch (m * ch) s.prev with hpx
    have hmul : (m + 1) * (ch + 1) = m * (ch + 1) + (ch + 1) := by ring
    have ha : ch = 3 → px.a = s.prev.a := by
      intro h3
      rw [hpx, h3]
      rfl
    simp only [encPixelStep]
    split_ifs <;>
      simp only [List.length_append, List.length_cons, List.length_nil] <;>
      omega

/-- C10: an accepted encode returns a stream no longer than the
allocated `width*height*(channels+1) + 14 + 8` bytes: each pixel
contributes at most `channels+1` bytes of chunk data (a pending run is
worth one byte), so the pre-sized buffer is never overrun. -/
theorem c10_size_bound (data : List Nat) (desc : QoiDesc) (S : List Nat)
    (hS : qoi_encode data desc = some S) :
    S.length ≤ desc.width * desc.height * (desc.channels + 1) + 14 + 8 := by
  by_cases hbad : encBadDesc desc
  · rw [qoi_encode, if_pos hbad] at hS
    cases hS
  · simp only [qoi_encode, if_neg hbad] at hS
    rw [encLoop_encSt0] at hS
    have hSval := (Option.some.inj hS).symm
    subst hSval
    have hchd : desc.channels = 3 ∨ desc.channels = 4 := by
      unfold encBadDesc at hbad
      push_neg at hbad
      omega
    have hb := encSt_out_bound data desc.channels
      (desc.width * desc.height * desc.channels - desc.channels) hchd
      (desc.width * desc.height)
    have hpad : qoi_padding.length = 8 := rfl
    simp only [List.length_append, qoiHeader_len, hpad]
    omega

theorem c1_roundtrip_witness :
    (∀ b ∈ [0, 0, 0, 255, 0, 0, 0, 255], b < 256) ∧
    [0, 0, 0, 255, 0, 0, 0, 255].length = 2 * 1 * 4 ∧
    ¬ encBadDesc ⟨2, 1, 4, 0⟩ ∧
    (qoi_encode [0, 0, 0, 255, 0, 0, 0, 255] ⟨2, 1, 4, 0⟩).bind
        (fun S => qoi_decode S 4) =
      some (⟨2, 1, 4, 0⟩, [0, 0, 0, 255, 0, 0, 0, 255]) :=
  ⟨by decide, by decide, by decide,
    c1_roundtrip [0, 0, 0, 255, 0, 0, 0, 255] ⟨2, 1, 4, 0⟩ (by decide) (by decide)
      (by decide)⟩

theorem c9_witness :
    (∀ b ∈ [0, 0, 0, 255, 0, 0, 0, 255], b < 256) ∧
    [0, 0, 0, 255, 0, 0, 0, 255].length = 2 * 1 * 4 ∧
    ¬ encBadDesc ⟨2, 1, 4, 0⟩ ∧
    qoi_encode [0, 0, 0, 255, 0, 0, 0, 255] ⟨2, 1, 4, 0⟩ = some blackBase ∧
    [7, 7, 7, 7, 7, 7, 7, 7].length = 8 ∧
    (qoi_decode (blackBase.take (blackBase.length - 8) ++ [7, 7, 7, 7, 7, 7, 7, 7]) 4 =
        qoi_decode blackBase 4 ∧
      qoi_decode blackBase 4 ≠ none) :=
  ⟨by decide, by decide, by decide, by decide, by decide,
    c9_terminator_ignored [0, 0, 0, 255, 0, 0, 0, 255] ⟨2, 1, 4, 0⟩ (by decide)
      (by decide) (by decide) blackBase (by decide) [7, 7, 7, 7, 7, 7, 7, 7] (by decide)⟩

theorem c3_amended_witness :
    (∀ b ∈ [0, 0, 0, 255, 0, 0, 0, 255], b < 256) ∧
    ¬ encBadDesc ⟨2, 1, 4, 0⟩ ∧
    qoi_encode [0, 0, 0, 255, 0, 0, 0, 255] ⟨2, 1, 4, 0⟩ = some blackBase ∧
    2 ≤ 2 * 1 ∧ 53 < 64 ∧
    ((decLoop blackBase (blackBase.length - 8) 4
        (2 - (encSt [0, 0, 0, 255, 0, 0, 0, 255] 4 (2 * 1 * 4 - 4) 2).run)
        decInit).index.getD 53 zeroPx =
      (encSt [0, 0, 0, 255, 0, 0, 0, 255] 4 (2 * 1 * 4 - 4) 2).index.getD 53 zeroPx ∨
    (53 = 53 ∧
      (decLoop blackBase (blackBase.length - 8) 4
        (2 - (encSt [0, 0, 0, 255, 0, 0, 0, 255] 4 (2 * 1 * 4 - 4) 2).run)
        decInit).index.getD 53 zeroPx = initPx ∧
      (encSt [0, 0, 0, 255, 0, 0, 0, 255] 4 (2 * 1 * 4 - 4) 2).index.getD 53 zeroPx =
        zeroPx)) :=
  ⟨by decide, by decide, by decide, by decide, by decide,
    c3_amended [0, 0, 0, 255, 0, 0, 0, 255] ⟨2, 1, 4, 0⟩ blackBase (by decide)
      (by decide) (by decide) 2 (by decide) 53 (by decide)⟩

theorem c10_witness :
    qoi_encode [0, 0, 0, 255, 0, 0, 0, 255] ⟨2, 1, 4, 0⟩ = some blackBase ∧
    blackBase.length ≤ 2 * 1 * (4 + 1) + 14 + 8 :=
  ⟨by decide,
    c10_size_bound [0, 0, 0, 255, 0, 0, 0, 255] ⟨2, 1, 4, 0⟩ blackBase (by decide)⟩

theorem c4_witness :
    qoi_decode blackBase 0 =
      some (⟨2, 1, 4, 0⟩, [0, 0, 0, 255, 0, 0, 0, 255]) ∧
    ([0, 0, 0, 255, 0, 0, 0, 255] : List Nat).length =
      2 * 1 * (if (0 : Nat) = 0 then 4 else 0) :=
  ⟨by decide, (c4_amended blackBase 0).2 ⟨2, 1, 4, 0⟩ _ (by decide)⟩

end QoiSpec
